import Mathlib

/-!
Verification development for the PO-catalog reconciliation engine of
`po_parser.py` (class `POParser`).  Strings are modelled as `List Char`;
Python dicts with `int` keys as insertion-ordered association lists.
Character classes of Python's `re` module (`\s`, `\w`, `\d`) are modelled
over their ASCII parts, which is what every input considered here uses.
-/

namespace Po

/-- Python `str.strip` / `str.rstrip` whitespace class (ASCII part). -/
def pyIsSpace (c : Char) : Bool :=
  c = ' ' || c = '\t' || c = '\n' || c = '\r' || c = '\x0b' || c = '\x0c'

/-- Python `str.strip()`. -/
def pyStrip (s : List Char) : List Char :=
  ((s.dropWhile pyIsSpace).reverse.dropWhile pyIsSpace).reverse

/-- Python `str.rstrip()`. -/
def pyRstrip (s : List Char) : List Char :=
  (s.reverse.dropWhile pyIsSpace).reverse

/-- Number of leading `'\n'` characters (`count_leading_newlines`). -/
def countLeadNl (s : List Char) : Nat :=
  (s.takeWhile (fun c => c = '\n')).length

/-- Number of trailing `'\n'` characters (`count_trailing_newlines`). -/
def countTrailNl (s : List Char) : Nat :=
  countLeadNl s.reverse

/-- Boolean prefix test on character lists. -/
def isPfx : List Char → List Char → Bool
  | [], _ => true
  | _ :: _, [] => false
  | a :: as, b :: bs => a = b && isPfx as bs

/-- Python `str.replace(pat, rep)`, fueled for structural recursion:
leftmost, non-overlapping, the replacement text is not rescanned.
Every step consumes at least one character, so fuel `s.length`
(supplied by `replaceAll`) never runs out. -/
def replaceAllGo (pat rep : List Char) : Nat → List Char → List Char
  | 0, s => s
  | _, [] => []
  | fuel + 1, c :: rest =>
    if 0 < pat.length ∧ isPfx pat (c :: rest) then
      rep ++ replaceAllGo pat rep fuel ((c :: rest).drop pat.length)
    else
      c :: replaceAllGo pat rep fuel rest

/-- Python `str.replace(pat, rep)`. -/
def replaceAll (pat rep : List Char) (s : List Char) : List Char :=
  replaceAllGo pat rep s.length s

/-- Python `' '.join`. -/
def joinSpace : List (List Char) → List Char
  | [] => []
  | [t] => t
  | t :: ts => t ++ ' ' :: joinSpace ts

/-- Python `\d` (ASCII). -/
def isDigitB (c : Char) : Bool := c.isDigit

/-- Python `\w` (ASCII part: letters, digits, underscore). -/
def isWordB (c : Char) : Bool := c.isAlphanum || c = '_'

/-- Candidate remainders for a greedy `p+`, longest first
(drops of length n, n-1, …, 1 where n is the maximal run). -/
def greedySome (p : Char → Bool) (s : List Char) : List (List Char) :=
  let n := (s.takeWhile p).length
  (List.range n).map (fun i => s.drop (n - i))

/-- Candidate remainders for a greedy `p*`, longest first (drops n … 0). -/
def greedyMany (p : Char → Bool) (s : List Char) : List (List Char) :=
  let n := (s.takeWhile p).length
  (List.range (n + 1)).map (fun i => s.drop (n - i))

/-- Candidate remainder after a literal, when it is a prefix. -/
def litCand (lit : List Char) (s : List Char) : List (List Char) :=
  if isPfx lit s then [s.drop lit.length] else []

/-- Conversion characters of the printf regex: `[diuoxXfFeEgGaAcspn]`. -/
def convChars : List Char :=
  ['d', 'i', 'u', 'o', 'x', 'X', 'f', 'F', 'e', 'E', 'g', 'G', 'a', 'A', 'c', 's', 'p', 'n']

/-- Flag characters of the printf regex: `[#0\- +]`. -/
def flagChars : List Char := ['#', '0', '-', ' ', '+']

/-- Remainders after `\([^)]+\)` (the `%(name)s` positional form). -/
def posParenCand (s : List Char) : List (List Char) :=
  match s with
  | '(' :: r =>
    match r.drop (r.takeWhile (fun c => !(c = ')'))).length with
    | ')' :: r2 => if 0 < (r.takeWhile (fun c => !(c = ')'))).length then [r2] else []
    | _ => []
  | _ => []

/-- Remainders after the optional positional part `(?:\d+\$|\([^)]+\))?`,
in the backtracking order of Python's engine. -/
def posCands (s : List Char) : List (List Char) :=
  ((greedySome isDigitB s).filterMap (fun r =>
    match r with
    | '$' :: r2 => some r2
    | _ => none)) ++ posParenCand s ++ [s]

/-- Remainders after the flags `[#0\- +]*`. -/
def flagsCands (s : List Char) : List (List Char) :=
  greedyMany (fun c => flagChars.contains c) s

/-- Remainders after the width `(?:\*|\d+)?`. -/
def widthCands (s : List Char) : List (List Char) :=
  (match s with
   | '*' :: r => [r]
   | _ => []) ++ greedySome isDigitB s ++ [s]

/-- Remainders after the precision `(?:\.(?:\*|\d+))?`. -/
def precCands (s : List Char) : List (List Char) :=
  (match s with
   | '.' :: r =>
     (match r with
      | '*' :: r2 => [r2]
      | _ => []) ++ greedySome isDigitB r
   | _ => []) ++ [s]

/-- Remainders after the length modifier `(?:hh|h|l|ll|j|z|t|L)?`,
alternatives in source order. -/
def lenCands (s : List Char) : List (List Char) :=
  litCand ['h', 'h'] s ++ litCand ['h'] s ++ litCand ['l'] s ++ litCand ['l', 'l'] s ++
    litCand ['j'] s ++ litCand ['z'] s ++ litCand ['t'] s ++ litCand ['L'] s ++ [s]

/-- The final conversion character. -/
def convStep (s : List Char) : Option (List Char) :=
  match s with
  | c :: r => if convChars.contains c then some r else none
  | [] => none

/-- Match of the printf placeholder regex
`%(?!%)(?:\d+\$|\([^)]+\))?[#0\- +]*(?:\*|\d+)?(?:\.(?:\*|\d+))?(?:hh|h|l|ll|j|z|t|L)?[diuoxXfFeEgGaAcspn]`
anchored at the start; returns the remainder after the match. -/
def matchPrintfAt : List Char → Option (List Char)
  | '%' :: s1 =>
    if s1.head? = some '%' then none
    else
      (posCands s1).findSome? fun s2 =>
      (flagsCands s2).findSome? fun s3 =>
      (widthCands s3).findSome? fun s4 =>
      (precCands s4).findSome? fun s5 =>
      (lenCands s5).findSome? fun s6 =>
      convStep s6
  | _ => none

/-- Word-boundary test of `\b` placed after a digit: the next character
must not be a word character (or the string ends). -/
def boundaryOk (s : List Char) : Bool :=
  match s.head? with
  | none => true
  | some c => !isWordB c

/-- Match of the Qt placeholder regex `%(?!%)(\d+)\b` anchored at the
start; returns the remainder after the digits. -/
def matchQtAt : List Char → Option (List Char)
  | '%' :: s1 =>
    if s1.head? = some '%' then none
    else
      (greedySome isDigitB s1).findSome? fun r =>
        if boundaryOk r then some r else none
  | _ => none

/-- Match of the brace placeholder regex `\{(?:\w+|\d+)(?:[^{}]*)\}`
anchored at the start; returns the remainder after the match. -/
def matchBraceAt : List Char → Option (List Char)
  | '{' :: s1 =>
    (greedySome isWordB s1 ++ greedySome isDigitB s1).findSome? fun s2 =>
    (greedyMany (fun c => !(c = '{' || c = '}')) s2).findSome? fun s3 =>
    match s3 with
    | '}' :: r => some r
    | _ => none
  | _ => none

/-- Python `re.finditer`, fueled for structural recursion: scan left to
right, emit each non-overlapping match (as the matched text) and resume
after it.  Every step consumes at least one character, so fuel
`s.length` (supplied by `finditer`) never runs out. -/
def finditerGo (matchAt : List Char → Option (List Char)) : Nat → List Char → List (List Char)
  | 0, _ => []
  | _, [] => []
  | fuel + 1, c :: rest =>
    match matchAt (c :: rest) with
    | some r =>
      if r.length < rest.length + 1 then
        ((c :: rest).take (rest.length + 1 - r.length)) :: finditerGo matchAt fuel r
      else
        finditerGo matchAt fuel rest
    | none => finditerGo matchAt fuel rest

/-- Python `re.finditer` over a whole string. -/
def finditer (matchAt : List Char → Option (List Char)) (s : List Char) : List (List Char) :=
  finditerGo matchAt s.length s

/-- Deduplication keeping the first occurrence (the `seen` set of
`_extract_placeholders`). -/
def dedupGo (seen : List (List Char)) : List (List Char) → List (List Char)
  | [] => []
  | t :: ts => if t ∈ seen then dedupGo seen ts else t :: dedupGo (t :: seen) ts

/-- Deduplication keeping first occurrences. -/
def dedupFirst (l : List (List Char)) : List (List Char) := dedupGo [] l

/-- `_extract_placeholders`: the printf, Qt and brace families in that
order, deduplicated keeping first occurrences. -/
def extractPlaceholders (t : List Char) : List (List Char) :=
  dedupFirst (finditer matchPrintfAt t ++ finditer matchQtAt t ++ finditer matchBraceAt t)

/-- Match of the simplified placeholder regex `%(?:\d+\$)?[sd]` of
`_normalize_plural_entries`, anchored at the start. -/
def matchSimpleAt : List Char → Option (List Char)
  | '%' :: s1 =>
    (((greedySome isDigitB s1).filterMap (fun r =>
        match r with
        | '$' :: r2 => some r2
        | _ => none)) ++ [s1]).findSome? fun s2 =>
      match s2 with
      | c :: r => if c = 's' || c = 'd' then some r else none
      | [] => none
  | _ => none

/-- `re.search` of the simplified placeholder regex (`has_placeholder`). -/
def hasSimplePh : List Char → Bool
  | [] => false
  | c :: r => (matchSimpleAt (c :: r)).isSome || hasSimplePh r

end Po

namespace Po

/-- The `plural_forms` strings of `LANGUAGE_CONFIG`, keyed by language
code (the GUI-only `name` field is omitted: the engine never reads it). -/
def LANGUAGE_CONFIG : List (String × String) := [
  ("zh_CN", "nplurals=1; plural=0;"),
  ("zh_TW", "nplurals=1; plural=0;"),
  ("en_US", "nplurals=2; plural=(n != 1);"),
  ("en_GB", "nplurals=2; plural=(n != 1);"),
  ("es_ES", "nplurals=2; plural=(n != 1);"),
  ("fr_FR", "nplurals=2; plural=(n > 1);"),
  ("de_DE", "nplurals=2; plural=(n != 1);"),
  ("ja_JP", "nplurals=1; plural=0;"),
  ("ko_KR", "nplurals=1; plural=0;"),
  ("ru_RU", "nplurals=3; plural=(n%10==1 && n%100!=11 ? 0 : n%10>=2 && n%10<=4 && (n%100<10 || n%100>=20) ? 1 : 2);"),
  ("ar_SA", "nplurals=6; plural=(n==0 ? 0 : n==1 ? 1 : n==2 ? 2 : n%100>=3 && n%100<=10 ? 3 : n%100>=11 ? 4 : 5);"),
  ("pt_BR", "nplurals=2; plural=(n > 1);"),
  ("it_IT", "nplurals=2; plural=(n != 1);"),
  ("nl_NL", "nplurals=2; plural=(n != 1);"),
  ("pl_PL", "nplurals=3; plural=(n==1 ? 0 : n%10>=2 && n%10<=4 && (n%100<10 || n%100>=20) ? 1 : 2);"),
  ("cs_CZ", "nplurals=3; plural=(n==1) ? 0 : (n>=2 && n<=4) ? 1 : 2;"),
  ("sk_SK", "nplurals=3; plural=(n==1) ? 0 : (n>=2 && n<=4) ? 1 : 2;"),
  ("hr_HR", "nplurals=3; plural=(n%10==1 && n%100!=11 ? 0 : n%10>=2 && n%10<=4 && (n%100<10 || n%100>=20) ? 1 : 2);"),
  ("sr_RS", "nplurals=3; plural=(n%10==1 && n%100!=11 ? 0 : n%10>=2 && n%10<=4 && (n%100<10 || n%100>=20) ? 1 : 2);"),
  ("bg_BG", "nplurals=2; plural=(n != 1);"),
  ("ro_RO", "nplurals=3; plural=(n==1 ? 0 : (n==0 || (n%100 > 0 && n%100 < 20)) ? 1 : 2);"),
  ("uk_UA", "nplurals=3; plural=(n%10==1 && n%100!=11 ? 0 : n%10>=2 && n%10<=4 && (n%100<10 || n%100>=20) ? 1 : 2);"),
  ("lt_LT", "nplurals=3; plural=(n%10==1 && n%100!=11 ? 0 : n%10>=2 && (n%100<10 || n%100>=20) ? 1 : 2);"),
  ("lv_LV", "nplurals=3; plural=(n%10==1 && n%100!=11 ? 0 : n != 0 ? 1 : 2);"),
  ("fi_FI", "nplurals=2; plural=(n != 1);"),
  ("sv_SE", "nplurals=2; plural=(n != 1);"),
  ("no_NO", "nplurals=2; plural=(n != 1);"),
  ("da_DK", "nplurals=2; plural=(n != 1);"),
  ("hu_HU", "nplurals=2; plural=(n != 1);"),
  ("tr_TR", "nplurals=2; plural=(n > 1);"),
  ("vi_VN", "nplurals=1; plural=0;"),
  ("he_IL", "nplurals=2; plural=(n != 1);"),
  ("el_GR", "nplurals=2; plural=(n != 1);"),
  ("et_EE", "nplurals=2; plural=(n != 1);"),
  ("sl_SI", "nplurals=4; plural=(n%100==1 ? 0 : n%100==2 ? 1 : n%100==3 || n%100==4 ? 2 : 3);"),
  ("is_IS", "nplurals=2; plural=(n%10!=1 || n%100==11);"),
  ("cy_GB", "nplurals=4; plural=(n==1) ? 0 : (n==2) ? 1 : (n != 8 && n != 11) ? 2 : 3;"),
  ("eu_ES", "nplurals=2; plural=(n != 1);"),
  ("ca_ES", "nplurals=2; plural=(n != 1);"),
  ("gl_ES", "nplurals=2; plural=(n != 1);"),
  ("th_TH", "nplurals=1; plural=0;"),
  ("id_ID", "nplurals=1; plural=0;"),
  ("ms_MY", "nplurals=1; plural=0;"),
  ("sw_KE", "nplurals=2; plural=(n != 1);"),
  ("am_ET", "nplurals=2; plural=(n > 1);"),
  ("hi_IN", "nplurals=2; plural=(n != 1);"),
  ("bn_BD", "nplurals=2; plural=(n != 1);"),
  ("ur_PK", "nplurals=2; plural=(n != 1);"),
  ("fa_IR", "nplurals=2; plural=(n > 1);"),
  ("nn_NO", "nplurals=2; plural=(n != 1);"),
  ("ga_IE", "nplurals=5; plural=n==1 ? 0 : n==2 ? 1 : (n>2 && n<7) ? 2 :(n>6 && n<11) ? 3 : 4;"),
  ("gd_GB", "nplurals=4; plural=(n==1 || n==11) ? 0 : (n==2 || n==12) ? 1 : (n > 2 && n < 20) ? 2 : 3;"),
  ("mt_MT", "nplurals=4; plural=(n==1) ? 0 : (n==0 || (n%100 > 1 && n%100 < 11)) ? 1 : (n%100 > 10 && n%100 < 20) ? 2 : 3;"),
  ("eo", "nplurals=2; plural=(n != 1);"),
  ("af_ZA", "nplurals=2; plural=(n != 1);"),
  ("ta_IN", "nplurals=2; plural=(n != 1);"),
  ("te_IN", "nplurals=2; plural=(n != 1);"),
  ("gu_IN", "nplurals=2; plural=(n != 1);"),
  ("pa_IN", "nplurals=2; plural=(n != 1);"),
  ("mr_IN", "nplurals=2; plural=(n != 1);"),
  ("kn_IN", "nplurals=2; plural=(n != 1);"),
  ("ml_IN", "nplurals=2; plural=(n != 1);"),
  ("si_LK", "nplurals=2; plural=(n != 1);"),
  ("my_MM", "nplurals=1; plural=0;"),
  ("km_KH", "nplurals=1; plural=0;"),
  ("lo_LA", "nplurals=1; plural=0;"),
  ("ka_GE", "nplurals=2; plural=(n != 1);"),
  ("hy_AM", "nplurals=2; plural=(n != 1);"),
  ("az_AZ", "nplurals=2; plural=(n != 1);"),
  ("kk_KZ", "nplurals=2; plural=(n != 1);"),
  ("uz_UZ", "nplurals=2; plural=(n != 1);"),
  ("mn_MN", "nplurals=2; plural=(n != 1);"),
  ("bo_CN", "nplurals=1; plural=0;"),
  ("ug_CN", "nplurals=1; plural=0;"),
  ("ne_NP", "nplurals=2; plural=(n != 1);"),
  ("mg_MG", "nplurals=2; plural=(n > 1);"),
  ("ha_NG", "nplurals=2; plural=(n != 1);"),
  ("yo_NG", "nplurals=1; plural=0;"),
  ("ig_NG", "nplurals=1; plural=0;"),
  ("zu_ZA", "nplurals=2; plural=(n != 1);"),
  ("xh_ZA", "nplurals=2; plural=(n != 1);"),
  ("la", "nplurals=2; plural=(n != 1);"),
  ("sa_IN", "nplurals=3; plural=(n==1) ? 0 : (n==2) ? 1 : 2;"),
  ("sr_Latn_RS", "nplurals=3; plural=(n%10==1 && n%100!=11 ? 0 : n%10>=2 && n%10<=4 && (n%100<10 || n%100>=20) ? 1 : 2);"),
  ("bs_BA", "nplurals=3; plural=(n%10==1 && n%100!=11 ? 0 : n%10>=2 && n%10<=4 && (n%100<10 || n%100>=20) ? 1 : 2);"),
  ("sq_AL", "nplurals=2; plural=(n != 1);"),
  ("mk_MK", "nplurals=2; plural=(n==1 || n%10==1 ? 0 : 1);")]

/-- Value of the first `nplurals=(\\d+)` match in a `Plural-Forms`
string (`re.search`), as in `_get_plural_count` / `_get_plural_count_from_po`. -/
def natOfDigits (ds : List Char) : Nat :=
  ds.foldl (fun a c => 10 * a + (c.toNat - 48)) 0

/-- Search for `nplurals=` followed by at least one digit; return the
digit run's value. -/
def searchNPlurals : List Char → Option Nat
  | [] => none
  | c :: r =>
    if isPfx "nplurals=".toList (c :: r) then
      let ds := ((c :: r).drop 9).takeWhile isDigitB
      if ds.isEmpty then searchNPlurals r else some (natOfDigits ds)
    else searchNPlurals r

/-- One catalog message unit.  `msgid_plural = []` means the entry is
not pluralizable (polib stores `""` there). -/
structure Entry where
  msgid : List Char
  msgid_plural : List Char
  msgstr : List Char
  msgstr_plural : List (Nat × List Char)
deriving DecidableEq, Repr

/-- A loaded catalog: entries plus metadata mapping. -/
structure Catalog where
  entries : List Entry
  metadata : List (String × List Char)
deriving DecidableEq, Repr

/-- Pluralizability test (`entry.msgid_plural` truthiness). -/
def isPlural (e : Entry) : Bool := !e.msgid_plural.isEmpty

/-- Entries with a non-blank `msgid` are extracted for translation
(`untranslated_entries`); the header record has a blank `msgid`. -/
def exportable (e : Entry) : Bool := !(pyStrip e.msgid).isEmpty

/-- The `untranslated_entries` list of a loaded catalog. -/
def untranslatedOf (cat : Catalog) : List Entry := cat.entries.filter exportable

/-- Ordered-dict lookup on an association list. -/
def dLookup (k : Nat) : List (Nat × List Char) → Option (List Char)
  | [] => none
  | (k2, v) :: m => if k = k2 then some v else dLookup k m

/-- Python `dict.get(k, "")`. -/
def dGet (k : Nat) (m : List (Nat × List Char)) : List Char := (dLookup k m).getD []

/-- Metadata lookup with `""` default (`metadata.get(key, \'\')`). -/
def mdGet (k : String) (md : List (String × List Char)) : List Char :=
  match md.find? (fun p => p.1 = k) with
  | some p => p.2
  | none => []

/-- `_get_plural_count_from_po`: `nplurals` from the catalog's
`Plural-Forms` metadata, default 2. -/
def getPluralCountFromPo (cat : Catalog) : Nat :=
  let pf := mdGet "Plural-Forms" cat.metadata
  if pf.isEmpty then 2 else (searchNPlurals pf).getD 2

/-- `_get_plural_count`: `nplurals` for a language code via
`LANGUAGE_CONFIG`, default 2 for unknown codes. -/
def getPluralCountLang (lang : String) : Nat :=
  match LANGUAGE_CONFIG.find? (fun p => p.1 = lang) with
  | some p => (searchNPlurals p.2.toList).getD 2
  | none => 2

/-- The count used when a (truthy) language code is supplied, else the
catalog's declared count — the common
`_get_plural_count(language_code) if language_code else _get_plural_count_from_po()`. -/
def resolvedCount (lang : Option String) (cat : Catalog) : Nat :=
  match lang with
  | some l => if l = "" then getPluralCountFromPo cat else getPluralCountLang l
  | none => getPluralCountFromPo cat

/-- Units a single entry contributes to the flat stream: `msgid` for an
ordinary entry; `msgid`, `msgid_plural`, then `range(2, plural_count)`
repeats of `msgid_plural` for a pluralizable one. -/
def entryUnits (pc : Nat) (e : Entry) : List (List Char) :=
  if isPlural e then e.msgid :: e.msgid_plural :: List.replicate (pc - 2) e.msgid_plural
  else [e.msgid]

/-- The flat unit stream of `get_untranslated_texts` /
`export_untranslated_to_txt`, before per-line escaping. -/
def linearUnits (pc : Nat) : List Entry → List (List Char)
  | [] => []
  | e :: es => entryUnits pc e ++ linearUnits pc es

/-- The `_one_line` escaping of `export_untranslated_to_txt`:
normalize CRLF/CR to LF, then LF to the two characters `\\n`. -/
def oneLineExportEsc (s : List Char) : List Char :=
  replaceAll ['\n'] ['\\', 'n'] (replaceAll ['\r'] ['\n'] (replaceAll ['\r', '\n'] ['\n'] s))

/-- The `_one_line` escaping of `get_untranslated_texts`: internal line
breaks become the visible placeholder token. -/
def oneLinePhEsc (s : List Char) : List Char :=
  replaceAll ['\n'] "<NEWLINE_PLACEHOLDER_114514>".toList
    (replaceAll ['\r'] ['\n'] (replaceAll ['\r', '\n'] ['\n'] s))

/-- Decimal digits of a line number, fueled for structural recursion
(`natChars` supplies fuel `n + 1`, which never runs out since the
recursion divides by 10). -/
def natCharsGo : Nat → Nat → List Char
  | 0, _ => []
  | fuel + 1, n =>
    if n < 10 then [Char.ofNat (48 + n)]
    else natCharsGo fuel (n / 10) ++ [Char.ofNat (48 + n % 10)]

/-- Decimal digits of a line number, as Python `str(n)`. -/
def natChars (n : Nat) : List Char := natCharsGo (n + 1) n

/-- Sequential numbering `"<n>. <text>"` of the flat stream. -/
def numberFrom (n : Nat) : List (List Char) → List (List Char)
  | [] => []
  | t :: ts => (natChars n ++ '.' :: ' ' :: t) :: numberFrom (n + 1) ts

/-- `get_untranslated_texts`. -/
def getUntranslatedTexts (cat : Catalog) : List (List Char) :=
  (linearUnits (getPluralCountFromPo cat) (untranslatedOf cat)).map oneLinePhEsc

/-- The lines written by `export_untranslated_to_txt`, in order. -/
def exportLines (cat : Catalog) : List (List Char) :=
  numberFrom 1 ((linearUnits (getPluralCountFromPo cat) (untranslatedOf cat)).map oneLineExportEsc)

/-- Length of the `^\\s*\\d+\\. ` match at the start of a line, when it
matches (shared by the numbered-line filter and `clean_line`). -/
def numMatchLen (l : List Char) : Option Nat :=
  let ws := (l.takeWhile pyIsSpace).length
  let rest := l.drop ws
  let ds := (rest.takeWhile isDigitB).length
  if 0 < ds ∧ isPfx ['.', ' '] (rest.drop ds) then some (ws + ds + 2) else none

/-- Does a line match the numbered-format pattern `^\\s*\\d+\\. `? -/
def isNumberedLine (l : List Char) : Bool := (numMatchLen l).isSome

/-- `clean_line`: strip the numbered prefix when present, then restore
the visible `\\n` escapes to real line breaks. -/
def cleanLine (l : List Char) : List Char :=
  replaceAll ['\\', 'n'] ['\n']
    (match numMatchLen l with
     | some n => l.drop n
     | none => l)

/-- One decoded record of `_parse_translations`: the dict with a
`plural_forms` mapping for pluralizable entries, or a single `text`.
(The legacy `singular`/`plural` fields are derived from `plural_forms`
and never read on this path.) -/
inductive Parsed where
  | single (text : List Char)
  | plural (forms : List (Nat × List Char))
deriving DecidableEq, Repr

/-- The walk of `_parse_translations` over the untranslated entries,
`ti` being `translation_index` into the fixed line list `ts`.  A
pluralizable entry needs `pc` lines (`pc` is always the catalog's
declared count there), an ordinary entry one line; running short raises
(`none`). -/
def parseNumberedGo (pc : Nat) (ts : List (List Char)) : List Entry → Nat → Option (List Parsed)
  | [], _ => some []
  | e :: es, ti =>
    if isPlural e then
      if ts.length < ti + pc then none
      else
        (parseNumberedGo pc ts es (ti + pc)).map
          (Parsed.plural ((List.range pc).map fun j => (j, cleanLine (ts.getD (ti + j) []))) :: ·)
    else
      if ts.length ≤ ti then none
      else (parseNumberedGo pc ts es (ti + 1)).map (Parsed.single (cleanLine (ts.getD ti [])) :: ·)

/-- `_parse_translations` on the numbered lines. -/
def parseNumbered (pc : Nat) (entries : List Entry) (ts : List (List Char)) : Option (List Parsed) :=
  parseNumberedGo pc ts entries 0

/-- The plain one-text-per-line walk of `import_translations_from_txt`:
no prefix stripping, no escape reversal.  When an ordinary entry runs
out of lines the code retries once on blank-filtered lines, but the
retry re-raises unconditionally (the index already exceeds the filtered
length, which is smaller), so shortfall is a plain failure. -/
def parsePlainGo (pc : Nat) (ts : List (List Char)) : List Entry → Nat → Option (List Parsed)
  | [], _ => some []
  | e :: es, ti =>
    if isPlural e then
      if ts.length < ti + pc then none
      else
        (parsePlainGo pc ts es (ti + pc)).map
          (Parsed.plural ((List.range pc).map fun j => (j, ts.getD (ti + j) [])) :: ·)
    else
      if ts.length ≤ ti then none
      else (parsePlainGo pc ts es (ti + 1)).map (Parsed.single (ts.getD ti []) :: ·)

/-- Write one decoded record onto its entry.  A pluralizable entry gets
a fresh `msgstr_plural` and a cleared `msgstr`; an ordinary entry gets
`msgstr`.  The mismatched shapes mirror the legacy `dict.get` defaults. -/
def applyOne (e : Entry) (p : Parsed) : Entry :=
  if isPlural e then
    match p with
    | Parsed.plural forms => { e with msgstr_plural := forms, msgstr := [] }
    | Parsed.single _ => { e with msgstr_plural := [(0, []), (1, [])], msgstr := [] }
  else
    match p with
    | Parsed.single t => { e with msgstr := t }
    | Parsed.plural _ => { e with msgstr := [] }

/-- Distribute the decoded records onto the catalog's entries: the
untranslated (exportable) entries receive them in order, other records
stay as they are. -/
def applyParsed : List Entry → List Parsed → List Entry
  | [], _ => []
  | e :: es, ps =>
    if exportable e then
      match ps with
      | p :: ps2 => applyOne e p :: applyParsed es ps2
      | [] => e :: applyParsed es []
    else e :: applyParsed es ps

end Po

namespace Po

/-- The plural-target resolution of `_normalize_plural_entries`:
language code first, else the catalog's declared count, floored at 1. -/
def targetCount (lang : Option String) (cat : Catalog) : Nat :=
  max 1 (resolvedCount lang cat)

/-- `_normalize_plural_entries` on one entry for a given target count.
Ordinary entries are not touched.  For `target = 1` the mapping
collapses to the stripped form 0, substituting form 1 when a simple
printf placeholder is required and only form 1 has one, or when form 0
is blank.  For `target ≥ 2` missing indices below the target are filled
(form 1's stripped value preferred, else form 0's) and indices at or
above the target are deleted; `msgstr` is cleared either way. -/
def normalizeEntry (target : Nat) (e : Entry) : Entry :=
  if isPlural e then
    if target = 1 then
      let s0 := pyStrip (dGet 0 e.msgstr_plural)
      let s1 := pyStrip (dGet 1 e.msgstr_plural)
      let need := hasSimplePh e.msgid || hasSimplePh e.msgid_plural
      let s0a := if need && !hasSimplePh s0 && hasSimplePh s1 then s1 else s0
      let s0b := if s0a.isEmpty && !s1.isEmpty then s1 else s0a
      { e with msgstr := [], msgstr_plural := [(0, s0b)] }
    else
      let baseZero := pyStrip (dGet 0 e.msgstr_plural)
      let baseOne :=
        match dLookup 1 e.msgstr_plural with
        | some v => pyStrip v
        | none => baseZero
      let fillVal := if baseOne.isEmpty then baseZero else baseOne
      let keys := e.msgstr_plural.map Prod.fst
      let filled :=
        e.msgstr_plural ++ ((List.range target).filter (fun i => decide (i ∉ keys))).map (fun i => (i, fillVal))
      { e with msgstr := [], msgstr_plural := filled.filter (fun p => p.1 < target) }
  else e

/-- `_normalize_plural_entries` over the catalog. -/
def normalizeCatalog (lang : Option String) (cat : Catalog) : Catalog :=
  { cat with entries := cat.entries.map (normalizeEntry (targetCount lang cat)) }

/-- `_ensure_placeholders_by_set`: append the source placeholders
missing from the text, space-joined, separated by one space unless the
text already ends in a space or an ideographic space, then `rstrip`. -/
def ensureBySet (text : List Char) (srcToks : List (List Char)) : List Char :=
  let tgt := extractPlaceholders text
  let missing := (srcToks.filter (fun t => !t.isEmpty)).filter (fun t => decide (t ∉ tgt))
  if missing.isEmpty then text
  else
    let sep : List Char :=
      if text.isEmpty || text.getLast? = some ' ' || text.getLast? = some '　' then []
      else [' ']
    pyRstrip (text ++ sep ++ joinSpace missing)

/-- The source-token set of `_ensure_placeholders_all_entries`:
placeholders of `msgid`, then of `msgid_plural` when present,
deduplicated keeping order. -/
def srcToksOf (e : Entry) : List (List Char) :=
  dedupFirst (extractPlaceholders e.msgid ++
    (if isPlural e then extractPlaceholders e.msgid_plural else []))

/-- `_ensure_placeholders_all_entries` on one entry: repair every
non-blank plural form, or the non-empty non-blank single translation. -/
def ensureEntry (e : Entry) : Entry :=
  let toks := srcToksOf e
  if isPlural e then
    { e with msgstr_plural :=
        e.msgstr_plural.map (fun p =>
          (p.1, if (pyStrip p.2).isEmpty then p.2 else ensureBySet p.2 toks)) }
  else
    if !e.msgstr.isEmpty && !(pyStrip e.msgstr).isEmpty then
      { e with msgstr := ensureBySet e.msgstr toks }
    else e

/-- `_ensure_placeholders_all_entries` over the catalog. -/
def ensureCatalog (cat : Catalog) : Catalog :=
  { cat with entries := cat.entries.map ensureEntry }

/-- Leading half of the `align` helper of `_align_newline_parity`:
prepend or drop leading `'\n'` until the count matches `b`. -/
def alignLead (t b : List Char) : List Char :=
  if countLeadNl t < countLeadNl b then
    List.replicate (countLeadNl b - countLeadNl t) '\n' ++ t
  else if countLeadNl b < countLeadNl t then t.drop (countLeadNl t - countLeadNl b)
  else t

/-- Trailing half of the `align` helper: append or drop trailing `'\n'`
until the count matches `b`. -/
def alignTrail (t1 b : List Char) : List Char :=
  if countTrailNl t1 < countTrailNl b then
    t1 ++ List.replicate (countTrailNl b - countTrailNl t1) '\n'
  else if countTrailNl b < countTrailNl t1 then
    t1.take (t1.length - (countTrailNl t1 - countTrailNl b))
  else t1

/-- The `align` helper of `_align_newline_parity`: make the leading and
trailing `'\n'` counts of `t` equal to those of `b` by prepending /
dropping at the front and appending / dropping at the back; empty
strings are returned unchanged. -/
def alignStr (t b : List Char) : List Char :=
  if t.isEmpty then t else alignTrail (alignLead t b) b

/-- `_align_newline_parity` on one entry: a non-empty single translation
aligns with `msgid`; each plural form aligns with `msgid` (form 0) or
`msgid_plural` (forms ≥ 1).  (Obsolete records never reach the modelled
Catalog, whose entries are the live ones.) -/
def alignEntry (e : Entry) : Entry :=
  if !(isPlural e) then
    if e.msgstr.isEmpty then e else { e with msgstr := alignStr e.msgstr e.msgid }
  else
    if e.msgstr_plural.isEmpty then e
    else
      { e with msgstr_plural :=
          e.msgstr_plural.map (fun p =>
            (p.1, alignStr p.2 (if p.1 = 0 then e.msgid else e.msgid_plural))) }

/-- `_align_newline_parity` over the catalog. -/
def alignCatalog (cat : Catalog) : Catalog :=
  { cat with entries := cat.entries.map alignEntry }

/-- `import_translations_from_txt` after the file read: filter the
numbered lines; when any exist parse them in the numbered format (the
plural width there is always the catalog's declared count), otherwise
walk the raw lines in the plain format (the plural width prefers the
language code); validate the record count; only then write the records
onto the entries and run the newline-parity and plural-count passes.
`false` models the `return False` paths, which leave the catalog
untouched. -/
def importTranslations (cat : Catalog) (lines : List (List Char)) (lang : Option String) :
    Bool × Catalog :=
  let unt := untranslatedOf cat
  let numbered := lines.filter isNumberedLine
  let parsed? :=
    if !numbered.isEmpty then parseNumbered (getPluralCountFromPo cat) unt numbered
    else parsePlainGo (resolvedCount lang cat) lines unt 0
  match parsed? with
  | none => (false, cat)
  | some parsed =>
    if parsed.length ≠ unt.length then (false, cat)
    else
      let cat1 : Catalog := { cat with entries := applyParsed cat.entries parsed }
      (true, normalizeCatalog lang (alignCatalog cat1))

/-- The three repair passes exactly as `save_translated_po` runs them
before writing: plural-count normalization, placeholder repair, then
newline parity. -/
def savePassCatalog (lang : Option String) (cat : Catalog) : Catalog :=
  alignCatalog (ensureCatalog (normalizeCatalog lang cat))

/-- Number of flat-stream lines the entries require at plural width
`pc`: `pc` per pluralizable entry, 1 otherwise. -/
def requiredUnits (pc : Nat) : List Entry → Nat
  | [] => 0
  | e :: es => (if isPlural e then pc else 1) + requiredUnits pc es

end Po

namespace Po

lemma parseNumberedGo_isSome_iff (pc : Nat) (ts : List (List Char)) :
    ∀ (es : List Entry) (ti : Nat), ti ≤ ts.length →
      ((parseNumberedGo pc ts es ti).isSome ↔ ti + requiredUnits pc es ≤ ts.length) := by
  intro es
  induction es with
  | nil =>
    intro ti h
    simp [parseNumberedGo, requiredUnits]
    omega
  | cons e es ih =>
    intro ti h
    by_cases hp : isPlural e
    · by_cases hlen : ts.length < ti + pc
      · simp [parseNumberedGo, hp, hlen, requiredUnits] <;> omega
      · have h2 : ti + pc ≤ ts.length := by omega
        simp [parseNumberedGo, hp, hlen, requiredUnits, ih (ti + pc) h2] <;> omega
    · by_cases hlen : ts.length ≤ ti
      · simp [parseNumberedGo, hp, hlen, requiredUnits] <;> omega
      · have h2 : ti + 1 ≤ ts.length := by omega
        simp [parseNumberedGo, hp, hlen, requiredUnits, ih (ti + 1) h2] <;> omega

lemma parsePlainGo_isSome_iff (pc : Nat) (ts : List (List Char)) :
    ∀ (es : List Entry) (ti : Nat), ti ≤ ts.length →
      ((parsePlainGo pc ts es ti).isSome ↔ ti + requiredUnits pc es ≤ ts.length) := by
  intro es
  induction es with
  | nil =>
    intro ti h
    simp [parsePlainGo, requiredUnits]
    omega
  | cons e es ih =>
    intro ti h
    by_cases hp : isPlural e
    · by_cases hlen : ts.length < ti + pc
      · simp [parsePlainGo, hp, hlen, requiredUnits] <;> omega
      · have h2 : ti + pc ≤ ts.length := by omega
        simp [parsePlainGo, hp, hlen, requiredUnits, ih (ti + pc) h2] <;> omega
    · by_cases hlen : ts.length ≤ ti
      · simp [parsePlainGo, hp, hlen, requiredUnits] <;> omega
      · have h2 : ti + 1 ≤ ts.length := by omega
        simp [parsePlainGo, hp, hlen, requiredUnits, ih (ti + 1) h2] <;> omega

lemma parseNumberedGo_length (pc : Nat) (ts : List (List Char)) :
    ∀ (es : List Entry) (ti : Nat) (ps : List Parsed),
      parseNumberedGo pc ts es ti = some ps → ps.length = es.length := by
  intro es
  induction es with
  | nil =>
    intro ti ps hps
    simp only [parseNumberedGo, Option.some.injEq] at hps
    simp [← hps]
  | cons e es ih =>
    intro ti ps hps
    by_cases hp : isPlural e
    · by_cases hlen : ts.length < ti + pc
      · simp [parseNumberedGo, hp, hlen] at hps
      · rcases h2 : parseNumberedGo pc ts es (ti + pc) with _ | ps2
        · simp [parseNumberedGo, hp, hlen, h2] at hps
        · simp [parseNumberedGo, hp, hlen, h2] at hps
          simp [← hps, ih (ti + pc) ps2 h2]
    · by_cases hlen : ts.length ≤ ti
      · simp [parseNumberedGo, hp, hlen] at hps
      · rcases h2 : parseNumberedGo pc ts es (ti + 1) with _ | ps2
        · simp [parseNumberedGo, hp, hlen, h2] at hps
        · simp [parseNumberedGo, hp, hlen, h2] at hps
          simp [← hps, ih (ti + 1) ps2 h2]

lemma parsePlainGo_length (pc : Nat) (ts : List (List Char)) :
    ∀ (es : List Entry) (ti : Nat) (ps : List Parsed),
      parsePlainGo pc ts es ti = some ps → ps.length = es.length := by
  intro es
  induction es with
  | nil =>
    intro ti ps hps
    simp only [parsePlainGo, Option.some.injEq] at hps
    simp [← hps]
  | cons e es ih =>
    intro ti ps hps
    by_cases hp : isPlural e
    · by_cases hlen : ts.length < ti + pc
      · simp [parsePlainGo, hp, hlen] at hps
      · rcases h2 : parsePlainGo pc ts es (ti + pc) with _ | ps2
        · simp [parsePlainGo, hp, hlen, h2] at hps
        · simp [parsePlainGo, hp, hlen, h2] at hps
          simp [← hps, ih (ti + pc) ps2 h2]
    · by_cases hlen : ts.length ≤ ti
      · simp [parsePlainGo, hp, hlen] at hps
      · rcases h2 : parsePlainGo pc ts es (ti + 1) with _ | ps2
        · simp [parsePlainGo, hp, hlen, h2] at hps
        · simp [parsePlainGo, hp, hlen, h2] at hps
          simp [← hps, ih (ti + 1) ps2 h2]

end Po

namespace Po

lemma parseNumbered_eq_none (pc : Nat) (es : List Entry) (ts : List (List Char))
    (h : ts.length < requiredUnits pc es) : parseNumbered pc es ts = none := by
  have hiff := parseNumberedGo_isSome_iff pc ts es 0 (Nat.zero_le _)
  rcases hx : parseNumberedGo pc ts es 0 with _ | ps
  · simp [parseNumbered, hx]
  · rw [hx] at hiff
    simp only [Option.isSome_some, true_iff] at hiff
    omega

lemma parsePlainGo_eq_none (pc : Nat) (es : List Entry) (ts : List (List Char))
    (h : ts.length < requiredUnits pc es) : parsePlainGo pc ts es 0 = none := by
  have hiff := parsePlainGo_isSome_iff pc ts es 0 (Nat.zero_le _)
  rcases hx : parsePlainGo pc ts es 0 with _ | ps
  · rfl
  · rw [hx] at hiff
    simp only [Option.isSome_some, true_iff] at hiff
    omega

/-- C1: when the import stream fails the count validation — on either
the numbered path (fewer numbered lines than the catalog's entries
require) or the plain path — `import_translations_from_txt` returns
`False` and the catalog, in particular every entry's `msgstr` and
`msgstr_plural`, is exactly its pre-import value: parsing and
validation precede every mutation. -/
theorem c1_count_mismatch_leaves_catalog (cat : Catalog) (lines : List (List Char))
    (lang : Option String)
    (h : (¬(lines.filter isNumberedLine).isEmpty ∧
            (lines.filter isNumberedLine).length <
              requiredUnits (getPluralCountFromPo cat) (untranslatedOf cat)) ∨
         ((lines.filter isNumberedLine).isEmpty ∧
            lines.length < requiredUnits (resolvedCount lang cat) (untranslatedOf cat))) :
    importTranslations cat lines lang = (false, cat) := by
  rcases h with ⟨hne, hlt⟩ | ⟨he, hlt⟩
  · have hnone := parseNumbered_eq_none (getPluralCountFromPo cat) (untranslatedOf cat)
      (lines.filter isNumberedLine) hlt
    simp [importTranslations, hne, hnone]
  · have hnone := parsePlainGo_eq_none (resolvedCount lang cat) (untranslatedOf cat) lines hlt
    simp [importTranslations, he, hnone]

/-- Input for the C1 witness: two ordinary entries, one numbered line. -/
def exCatC1 : Catalog :=
  ⟨[⟨"a".toList, [], [], []⟩, ⟨"b".toList, [], [], []⟩], []⟩

/-- C1 witness: a numbered stream one line short fails and leaves the
catalog untouched. -/
theorem c1_witness :
    (¬(([("1. x").toList] : List (List Char)).filter isNumberedLine).isEmpty ∧
      (([("1. x").toList] : List (List Char)).filter isNumberedLine).length <
        requiredUnits (getPluralCountFromPo exCatC1) (untranslatedOf exCatC1)) ∧
    importTranslations exCatC1 [("1. x").toList] none = (false, exCatC1) :=
  ⟨by decide, c1_count_mismatch_leaves_catalog exCatC1 [("1. x").toList] none (Or.inl (by decide))⟩

end Po

namespace Po

/-- Input for the C2 counterexample: one pluralizable entry in a catalog
whose declared plural count is the default 2. -/
def exCatC2 : Catalog := ⟨[⟨"a".toList, "as".toList, [], []⟩], []⟩

/-- C2 counterexample: with language `zh_CN` (target form count 1) and a
numbered stream of exactly 1 line — enough by the claim, which says the
numbered path consumes the target language's count — the import fails:
the numbered re-grouping always consumes the catalog's declared count
(2 here), regardless of the supplied language code. -/
theorem c2_counterexample :
    getPluralCountLang "zh_CN" = 1 ∧
    getPluralCountFromPo exCatC2 = 2 ∧
    isPlural ⟨"a".toList, "as".toList, [], []⟩ = true ∧
    isNumberedLine ("1. x").toList = true ∧
    ¬((importTranslations exCatC2 [("1. x").toList] (some "zh_CN")).1 = true) := by
  decide

/-- C2 amended: during import re-grouping the plain path consumes, per
pluralizable entry, the target language's form count when a language
code is supplied (else the catalog's declared count); the numbered path
however always consumes the catalog's declared count, regardless of the
language code.  Consumption is expressed by the success condition:
the import succeeds exactly when the stream covers the per-entry sums. -/
theorem c2_amended (cat : Catalog) (lines : List (List Char)) (lang : Option String) :
    (¬(lines.filter isNumberedLine).isEmpty →
      ((importTranslations cat lines lang).1 = true ↔
        requiredUnits (getPluralCountFromPo cat) (untranslatedOf cat) ≤
          (lines.filter isNumberedLine).length)) ∧
    ((lines.filter isNumberedLine).isEmpty →
      ((importTranslations cat lines lang).1 = true ↔
        requiredUnits (resolvedCount lang cat) (untranslatedOf cat) ≤ lines.length)) := by
  constructor
  · intro hne
    rcases hx : parseNumbered (getPluralCountFromPo cat) (untranslatedOf cat)
        (lines.filter isNumberedLine) with _ | ps
    · have hx2 := hx
      rw [parseNumbered] at hx2
      have hiff := parseNumberedGo_isSome_iff (getPluralCountFromPo cat)
        (lines.filter isNumberedLine) (untranslatedOf cat) 0 (Nat.zero_le _)
      rw [hx2] at hiff
      simp only [Option.isSome_none, Bool.false_eq_true, false_iff] at hiff
      simp [importTranslations, hne, hx]
      omega
    · have hx2 := hx
      rw [parseNumbered] at hx2
      have hlen := parseNumberedGo_length (getPluralCountFromPo cat)
        (lines.filter isNumberedLine) (untranslatedOf cat) 0 ps hx2
      have hiff := parseNumberedGo_isSome_iff (getPluralCountFromPo cat)
        (lines.filter isNumberedLine) (untranslatedOf cat) 0 (Nat.zero_le _)
      rw [hx2] at hiff
      simp only [Option.isSome_some, true_iff] at hiff
      simp [importTranslations, hne, hx, hlen]
      omega
  · intro he
    rcases hx : parsePlainGo (resolvedCount lang cat) lines (untranslatedOf cat) 0 with _ | ps
    · have hiff := parsePlainGo_isSome_iff (resolvedCount lang cat) lines
        (untranslatedOf cat) 0 (Nat.zero_le _)
      rw [hx] at hiff
      simp only [Option.isSome_none, Bool.false_eq_true, false_iff] at hiff
      simp [importTranslations, he, hx]
      omega
    · have hlen := parsePlainGo_length (resolvedCount lang cat) lines (untranslatedOf cat) 0 ps hx
      have hiff := parsePlainGo_isSome_iff (resolvedCount lang cat) lines
        (untranslatedOf cat) 0 (Nat.zero_le _)
      rw [hx] at hiff
      simp only [Option.isSome_some, true_iff] at hiff
      simp [importTranslations, he, hx, hlen]
      omega

/-- C2 witness: on the plain path with `zh_CN` the same pluralizable
catalog needs exactly 1 line, so a 1-line plain stream succeeds. -/
theorem c2_witness :
    (([("x").toList] : List (List Char)).filter isNumberedLine).isEmpty = true ∧
    (importTranslations exCatC2 [("x").toList] (some "zh_CN")).1 = true :=
  ⟨by decide,
    ((c2_amended exCatC2 [("x").toList] (some "zh_CN")).2 (by decide)).mpr (by decide)⟩

end Po

namespace Po

lemma numberFrom_length : ∀ (n : Nat) (l : List (List Char)), (numberFrom n l).length = l.length := by
  intro n l
  induction l generalizing n with
  | nil => rfl
  | cons t ts ih => simp [numberFrom, ih]

lemma linearUnits_length (pc : Nat) :
    ∀ es : List Entry, (linearUnits pc es).length =
      ((es.map (fun e => if isPlural e then max 2 pc else 1)).sum) := by
  intro es
  induction es with
  | nil => rfl
  | cons e es ih =>
    by_cases hp : isPlural e
    · simp [linearUnits, entryUnits, hp, ih]
      omega
    · simp [linearUnits, entryUnits, hp, ih]
      omega

/-- Input for the C3 counterexample: a pluralizable entry in a catalog
whose metadata declares `nplurals=1`. -/
def exCatC3 : Catalog :=
  ⟨[⟨"1 file".toList, "%d files".toList, [], []⟩],
   [("Plural-Forms", "nplurals=1; plural=0;".toList)]⟩

/-- C3 counterexample: with a declared plural-form count of 1, the
single pluralizable entry linearizes to 2 units (`msgid` and
`msgid_plural` are always emitted), not to the claimed
`form_count = 1` unit, so the claimed count invariant fails. -/
theorem c3_counterexample :
    getPluralCountFromPo exCatC3 = 1 ∧
    (exportLines exCatC3).length = 2 ∧
    requiredUnits (getPluralCountFromPo exCatC3) (untranslatedOf exCatC3) = 1 ∧
    (exportLines exCatC3).length ≠
      requiredUnits (getPluralCountFromPo exCatC3) (untranslatedOf exCatC3) := by
  decide

/-- C3 amended: linearization emits one unit per ordinary entry and
`max 2 form_count` units per pluralizable entry (`form_count` read from
the catalog's `Plural-Forms` metadata, defaulting to 2): unit 0 holds
the source text, unit 1 the plural source text, units 2 and beyond
repeat the plural source text.  For `form_count ≥ 2` this is exactly
`form_count` units, as the claim states; the totals are the sums of the
per-entry counts, identically for the numbered export and the plain
text list. -/
theorem c3_amended (cat : Catalog) :
    ((exportLines cat).length =
      ((untranslatedOf cat).map
        (fun e => if isPlural e then max 2 (getPluralCountFromPo cat) else 1)).sum) ∧
    ((getUntranslatedTexts cat).length =
      ((untranslatedOf cat).map
        (fun e => if isPlural e then max 2 (getPluralCountFromPo cat) else 1)).sum) ∧
    (∀ (pc : Nat) (e : Entry), isPlural e = true → 2 ≤ pc →
      entryUnits pc e = e.msgid :: e.msgid_plural :: List.replicate (pc - 2) e.msgid_plural ∧
      (entryUnits pc e).length = pc) ∧
    (∀ (pc : Nat) (e : Entry), isPlural e = false → entryUnits pc e = [e.msgid]) := by
  refine ⟨?_, ?_, ?_, ?_⟩
  · rw [exportLines, numberFrom_length, List.length_map, linearUnits_length]
  · rw [getUntranslatedTexts, List.length_map, linearUnits_length]
  · intro pc e hp h2
    constructor
    · simp [entryUnits, hp]
    · simp [entryUnits, hp]
      omega
  · intro pc e hp
    simp [entryUnits, hp]

/-- C3 witness: the amended structure at a concrete pluralizable entry
and plural width 3 (the spec's plural-expansion example). -/
theorem c3_witness :
    isPlural ⟨"1 file".toList, "%d files".toList, [], []⟩ = true ∧ 2 ≤ 3 ∧
    entryUnits 3 ⟨"1 file".toList, "%d files".toList, [], []⟩ =
      ["1 file".toList, "%d files".toList, "%d files".toList] :=
  ⟨by decide, by decide, by
    have h := (c3_amended exCatC3).2.2.1 3 ⟨"1 file".toList, "%d files".toList, [], []⟩
      (by decide) (by decide)
    rw [h.1]
    decide⟩

end Po

namespace Po

lemma importTranslations_eq_of_filter (cat : Catalog) (lang : Option String)
    (lines1 lines2 : List (List Char))
    (hfe : lines1.filter isNumberedLine = lines2.filter isNumberedLine)
    (hne : ¬(lines1.filter isNumberedLine).isEmpty = true) :
    importTranslations cat lines1 lang = importTranslations cat lines2 lang := by
  have h1 : (!(lines1.filter isNumberedLine).isEmpty) = true := by
    cases hb : (lines1.filter isNumberedLine).isEmpty
    · rfl
    · exact absurd hb hne
  have h2 : (!(lines2.filter isNumberedLine).isEmpty) = true := by rw [← hfe]; exact h1
  simp only [importTranslations]
  rw [hfe, if_pos h2, if_pos h2]

/-- C10: when at least one line matches the numbered prefix pattern,
the import parses exactly the subsequence of matching lines, in order:
inserting any non-matching line (blank, comment, stray text) anywhere
changes nothing, and the whole import equals the import of just the
matching subsequence, so discarded lines never shift the alignment. -/
theorem c10_junk_lines_ignored (cat : Catalog) (l1 l2 : List (List Char)) (j : List Char)
    (lang : Option String) (hj : isNumberedLine j = false)
    (hnum : ¬((l1 ++ l2).filter isNumberedLine).isEmpty) :
    importTranslations cat (l1 ++ j :: l2) lang = importTranslations cat (l1 ++ l2) lang ∧
    importTranslations cat (l1 ++ l2) lang =
      importTranslations cat ((l1 ++ l2).filter isNumberedLine) lang := by
  have hfil : (l1 ++ j :: l2).filter isNumberedLine = (l1 ++ l2).filter isNumberedLine := by
    simp [List.filter_append, List.filter_cons, hj]
  have hfil2 : ((l1 ++ l2).filter isNumberedLine).filter isNumberedLine =
      (l1 ++ l2).filter isNumberedLine :=
    List.filter_eq_self.mpr (fun a ha => List.of_mem_filter ha)
  constructor
  · exact importTranslations_eq_of_filter cat lang _ _ hfil (by rw [hfil]; exact hnum)
  · exact importTranslations_eq_of_filter cat lang _ _ hfil2.symm hnum

/-- Catalog for the C10 witness. -/
def exCatC10 : Catalog := ⟨[⟨"a".toList, [], [], []⟩], []⟩

/-- C10 witness: inserting a comment line between numbered lines
changes nothing, at a concrete catalog/stream. -/
theorem c10_witness :
    isNumberedLine ("# note").toList = false ∧
    ¬(([("1. x").toList] ++ ([] : List (List Char))).filter isNumberedLine).isEmpty ∧
    importTranslations exCatC10 [("1. x").toList, ("# note").toList] none =
      importTranslations exCatC10 [("1. x").toList] none :=
  ⟨by decide, by decide, by
    have h := (c10_junk_lines_ignored exCatC10 [("1. x").toList] [] ("# note").toList none
      (by decide) (by decide)).1
    simpa using h⟩

end Po

namespace Po

/-- Failing input for C8: an ordinary entry whose source has a printf
and a brace placeholder and whose translation ends in an unmatched
`%(`. -/
def exEntryC8 : Entry := ⟨"%d {0)s}".toList, [], "ab%(x".toList, []⟩

/-- Catalog around the C8 failing input. -/
def exCatC8 : Catalog := ⟨[exEntryC8], []⟩

/-- C8: the Normalizer/Repair pass as run before save (plural-count
normalization, then placeholder repair, then newline parity) is not
idempotent.  On this entry the first run appends the missing `%d` and
`{0)s}`; the appended text then re-parses as one overlapping
`%(x %d {0)s` printf match, so `%d` is no longer extracted and the
second run appends it again. -/
theorem c8_not_idempotent :
    savePassCatalog none (savePassCatalog none exCatC8) ≠ savePassCatalog none exCatC8 ∧
    (savePassCatalog none exCatC8).entries.map Entry.msgstr = ["ab%(x %d {0)s}".toList] ∧
    (savePassCatalog none (savePassCatalog none exCatC8)).entries.map Entry.msgstr =
      ["ab%(x %d {0)s} %d".toList] := by
  decide

end Po

namespace Po

lemma hasSimplePh_ne_nil {s : List Char} (h : hasSimplePh s = true) : s ≠ [] := by
  intro hs
  subst hs
  simp [hasSimplePh] at h

/-- Input for the C6 counterexample: a brace placeholder required by the
source, present in form 1 only. -/
def exEntryC6 : Entry :=
  ⟨"{0} item".toList, "{0} items".toList, [], [(0, "x".toList), (1, "{0}Z".toList)]⟩

/-- Catalog around the C6 counterexample entry. -/
def exCatC6 : Catalog := ⟨[exEntryC6], []⟩

/-- C6 counterexample: target form count 1 (`zh_CN`), the required
brace placeholder `{0}` is missing from form 0 and present in form 1 —
the claim says form 1's value is used, but the collapse keeps form 0's
`"x"`: the substitution tests only the simplified printf pattern
`%(?:\d+\$)?[sd]`, not all three placeholder families. -/
theorem c6_counterexample :
    targetCount (some "zh_CN") exCatC6 = 1 ∧
    ("{0}".toList ∈ extractPlaceholders exEntryC6.msgid) ∧
    ("{0}".toList ∉ extractPlaceholders (pyStrip (dGet 0 exEntryC6.msgstr_plural))) ∧
    ("{0}".toList ∈ extractPlaceholders (pyStrip (dGet 1 exEntryC6.msgstr_plural))) ∧
    (normalizeCatalog (some "zh_CN") exCatC6).entries.map Entry.msgstr_plural =
      [[(0, "x".toList)]] ∧
    ¬(dLookup 0 ((normalizeEntry (targetCount (some "zh_CN") exCatC6) exEntryC6).msgstr_plural) =
        some (pyStrip (dGet 1 exEntryC6.msgstr_plural))) := by
  decide

/-- C6 amended: when the resolved target form count is 1, plural-count
normalization collapses every pluralizable entry to a single stripped
form-0 value; if form 0 lacks a *simplified printf-style* placeholder
(`%s`/`%d`, optionally `%N$`-positional — the only family this check
uses) which the source requires and form 1 contains one, form 1's value
is used; and if form 0 is blank, form 1's value is the fallback. -/
theorem c6_amended (lang : Option String) (cat : Catalog) (e : Entry)
    (htc : targetCount lang cat = 1) (hp : isPlural e = true) :
    (normalizeEntry (targetCount lang cat) e).msgstr = [] ∧
    (∃ v, (normalizeEntry (targetCount lang cat) e).msgstr_plural = [(0, v)]) ∧
    ((hasSimplePh e.msgid || hasSimplePh e.msgid_plural) = true →
      hasSimplePh (pyStrip (dGet 0 e.msgstr_plural)) = false →
      hasSimplePh (pyStrip (dGet 1 e.msgstr_plural)) = true →
      (normalizeEntry (targetCount lang cat) e).msgstr_plural =
        [(0, pyStrip (dGet 1 e.msgstr_plural))]) ∧
    (pyStrip (dGet 0 e.msgstr_plural) = [] → pyStrip (dGet 1 e.msgstr_plural) ≠ [] →
      (normalizeEntry (targetCount lang cat) e).msgstr_plural =
        [(0, pyStrip (dGet 1 e.msgstr_plural))]) := by
  rw [htc]
  refine ⟨?_, ?_, ?_, ?_⟩
  · simp [normalizeEntry, hp]
  · exact ⟨_, by unfold normalizeEntry; rw [if_pos hp, if_pos rfl]⟩
  · intro hneed h0 h1
    have h1ne : pyStrip (dGet 1 e.msgstr_plural) ≠ [] := hasSimplePh_ne_nil h1
    simp [normalizeEntry, hp, hneed, h0, h1, h1ne]
  · intro h0 h1
    by_cases hc : ((hasSimplePh e.msgid || hasSimplePh e.msgid_plural) &&
        !hasSimplePh (pyStrip (dGet 0 e.msgstr_plural)) &&
        hasSimplePh (pyStrip (dGet 1 e.msgstr_plural))) = true
    · have h1s : hasSimplePh (pyStrip (dGet 1 e.msgstr_plural)) = true := by
        simp only [Bool.and_eq_true] at hc
        exact hc.2
      have h1ne : pyStrip (dGet 1 e.msgstr_plural) ≠ [] := hasSimplePh_ne_nil h1s
      simp [normalizeEntry, hp, h0, h1, hc, h1ne]
    · simp [normalizeEntry, hp, h0, h1, hc]

/-- Entry for the C6 witness: the spec's fallback example with blank
form 0. -/
def exEntryC6fb : Entry :=
  ⟨"%s item".toList, "%s items".toList, [], [(0, "".toList), (1, "%sX".toList)]⟩

/-- C6 witness: the spec's single-form collapse example — blank form 0
falls back to form 1. -/
theorem c6_witness :
    (targetCount (some "zh_CN") exCatC6 = 1 ∧ isPlural exEntryC6fb = true ∧
      pyStrip (dGet 0 exEntryC6fb.msgstr_plural) = [] ∧
      pyStrip (dGet 1 exEntryC6fb.msgstr_plural) ≠ []) ∧
    (normalizeEntry (targetCount (some "zh_CN") exCatC6) exEntryC6fb).msgstr_plural =
      [(0, pyStrip (dGet 1 exEntryC6fb.msgstr_plural))] :=
  ⟨by decide,
    (c6_amended (some "zh_CN") exCatC6 exEntryC6fb (by decide) (by decide)).2.2.2
      (by decide) (by decide)⟩

end Po

namespace Po

lemma dLookup_append (k : Nat) (a b : List (Nat × List Char)) :
    dLookup k (a ++ b) =
      match dLookup k a with
      | some v => some v
      | none => dLookup k b := by
  induction a with
  | nil => simp [dLookup]
  | cons p a ih =>
    by_cases hk : k = p.1
    · simp [dLookup, hk]
    · simp [dLookup, hk, ih]

lemma dLookup_filter_lt (k t : Nat) (m : List (Nat × List Char)) :
    dLookup k (m.filter (fun p => p.1 < t)) = if k < t then dLookup k m else none := by
  induction m with
  | nil => simp [dLookup]
  | cons p m ih =>
    by_cases hp : p.1 < t
    · by_cases hk : k = p.1
      · simp [List.filter_cons, hp, dLookup, hk]
      · simp [List.filter_cons, hp, dLookup, hk, ih]
    · by_cases hk : k = p.1
      · have hkt : ¬k < t := by omega
        simp [List.filter_cons, hp, ih, hkt]
      · simp [List.filter_cons, hp, dLookup, hk, ih]

lemma dLookup_map_pair (k : Nat) (l : List Nat) (v : List Char) :
    dLookup k (l.map (fun i => (i, v))) = if k ∈ l then some v else none := by
  induction l with
  | nil => simp [dLookup]
  | cons i l ih =>
    by_cases hk : k = i
    · simp [dLookup, hk]
    · simp [dLookup, hk, ih, List.mem_cons]

lemma dLookup_eq_none_iff (k : Nat) (m : List (Nat × List Char)) :
    dLookup k m = none ↔ k ∉ m.map Prod.fst := by
  induction m with
  | nil => simp [dLookup]
  | cons p m ih =>
    by_cases hk : k = p.1
    · simp [dLookup, hk]
    · simp [dLookup, hk, ih]

/-- Input for the C9 counterexample: an ordinary entry carrying a stale
non-empty form mapping. -/
def exEntryC9 : Entry := ⟨"a".toList, [], [], [(0, "x".toList)]⟩

/-- C9 counterexample: normalization never touches ordinary entries —
the non-empty `msgstr_plural` of a non-pluralizable entry survives, so
the claimed "empty form mapping for every non-pluralizable entry" does
not hold after normalization. -/
theorem c9_counterexample :
    isPlural exEntryC9 = false ∧
    (normalizeCatalog none ⟨[exEntryC9], []⟩).entries.map Entry.msgstr_plural =
      [[(0, "x".toList)]] ∧
    ¬((normalizeCatalog none ⟨[exEntryC9], []⟩).entries.map Entry.msgstr_plural = [[]]) := by
  decide

lemma normalizeEntry_ge2_shape (e : Entry) (hp : isPlural e = true) (t : Nat) (h1 : t ≠ 1) :
    ∃ fv, (normalizeEntry t e).msgstr_plural =
      (e.msgstr_plural ++
        ((List.range t).filter (fun i => decide (i ∉ e.msgstr_plural.map Prod.fst))).map
          (fun i => (i, fv))).filter (fun p => p.1 < t) := by
  unfold normalizeEntry
  rw [if_pos hp, if_neg h1]
  exact ⟨_, rfl⟩

/-- C9 amended: after normalization every pluralizable entry has its
single-translation slot cleared and its form mapping keyed exactly by
`0 .. target_form_count - 1`; ordinary (non-pluralizable) entries are
left untouched by normalization — their single slot is kept and their
form mapping is whatever it was before (empty whenever it was empty,
as on every pipeline-produced state), not actively cleared. -/
theorem c9_amended (lang : Option String) (cat : Catalog) (e : Entry) (he : e ∈ cat.entries) :
    (isPlural e = true →
      (normalizeEntry (targetCount lang cat) e).msgstr = [] ∧
      ∀ k, ((dLookup k (normalizeEntry (targetCount lang cat) e).msgstr_plural).isSome = true ↔
        k < targetCount lang cat)) ∧
    (isPlural e = false → normalizeEntry (targetCount lang cat) e = e) ∧
    normalizeEntry (targetCount lang cat) e ∈ (normalizeCatalog lang cat).entries := by
  refine ⟨?_, ?_, ?_⟩
  · intro hp
    by_cases h1 : targetCount lang cat = 1
    · refine ⟨by simp [normalizeEntry, hp, h1], ?_⟩
      intro k
      rw [h1]
      rcases k with _ | k
      · simp [normalizeEntry, hp, h1, dLookup]
      · simp [normalizeEntry, hp, h1, dLookup]
    · refine ⟨by simp [normalizeEntry, hp, h1], ?_⟩
      intro k
      obtain ⟨fv, hmp⟩ := normalizeEntry_ge2_shape e hp (targetCount lang cat) h1
      rw [hmp, dLookup_filter_lt]
      by_cases hk : k < targetCount lang cat
      · simp only [hk, if_true, true_iff]
        rw [dLookup_append]
        rcases hx : dLookup k e.msgstr_plural with _ | v
        · rw [dLookup_map_pair]
          have hkmem : k ∈ (List.range (targetCount lang cat)).filter
              (fun i => decide (i ∉ e.msgstr_plural.map Prod.fst)) := by
            rw [List.mem_filter]
            refine ⟨List.mem_range.mpr hk, ?_⟩
            simp [(dLookup_eq_none_iff k e.msgstr_plural).mp hx]
          rw [if_pos hkmem]
          simp
        · simp
      · simp [hk]
  · intro hp
    simp [normalizeEntry, hp]
  · exact List.mem_map.mpr ⟨e, he, rfl⟩

/-- Entry for the C9 witness: stale plural keys 0 and 5. -/
def exEntryC2w : Entry :=
  ⟨"a".toList, "as".toList, "zz".toList, [(0, "x".toList), (5, "y".toList)]⟩

/-- Catalog for the C9 witness (declared count defaults to 2). -/
def exCatC9w : Catalog := ⟨[exEntryC2w], []⟩

/-- C9 witness: the amended statement at a concrete pluralizable entry
(catalog count 2, stale keys 0 and 5). -/
theorem c9_witness :
    (isPlural exEntryC2w = true ∧ exEntryC2w ∈ exCatC9w.entries) ∧
    ((normalizeEntry (targetCount none exCatC9w) exEntryC2w).msgstr = [] ∧
      ∀ k, ((dLookup k (normalizeEntry (targetCount none exCatC9w) exEntryC2w).msgstr_plural).isSome =
        true ↔ k < targetCount none exCatC9w)) :=
  ⟨⟨by decide, by decide⟩,
    (c9_amended none exCatC9w exEntryC2w (by decide)).1 (by decide)⟩

end Po

namespace Po

lemma countLeadNl_nil : countLeadNl [] = 0 := rfl

lemma countLeadNl_cons (c : Char) (s : List Char) :
    countLeadNl (c :: s) = if c = '\n' then countLeadNl s + 1 else 0 := by
  by_cases hc : c = '\n'
  · simp [countLeadNl, List.takeWhile_cons, hc]
  · simp [countLeadNl, List.takeWhile_cons, hc]

lemma countLeadNl_le_length (s : List Char) : countLeadNl s ≤ s.length := by
  simpa [countLeadNl] using (List.takeWhile_sublist (fun c => c = '\n')).length_le

lemma countLeadNl_replicate_append (k : Nat) (t : List Char) :
    countLeadNl (List.replicate k '\n' ++ t) = k + countLeadNl t := by
  induction k with
  | zero => simp
  | succ k ih => simp [List.replicate_succ, countLeadNl_cons, ih]; omega

lemma countLeadNl_drop (d : Nat) (t : List Char) (h : d ≤ countLeadNl t) :
    countLeadNl (t.drop d) = countLeadNl t - d := by
  induction t generalizing d with
  | nil => simp [countLeadNl]
  | cons c t ih =>
    rcases d with _ | d
    · simp
    · rw [countLeadNl_cons] at h
      by_cases hc : c = '\n'
      · rw [if_pos hc] at h
        have hd : d ≤ countLeadNl t := by omega
        simp only [List.drop_succ_cons, ih d hd, countLeadNl_cons, hc, if_true]
        omega
      · rw [if_neg hc] at h
        omega

lemma mem_take_newline (d : Nat) (t : List Char) (h : d ≤ countLeadNl t) :
    ∀ c ∈ t.take d, c = '\n' := by
  induction t generalizing d with
  | nil => simp
  | cons c0 t ih =>
    rcases d with _ | d
    · simp
    · rw [countLeadNl_cons] at h
      by_cases hc : c0 = '\n'
      · rw [if_pos hc] at h
        intro c hmem
        simp only [List.take_succ_cons, List.mem_cons] at hmem
        rcases hmem with rfl | hmem
        · exact hc
        · exact ih d (by omega) c hmem
      · rw [if_neg hc] at h
        omega

lemma mem_drop_of_ne_newline (d : Nat) (t : List Char) (c : Char)
    (h : d ≤ countLeadNl t) (hmem : c ∈ t) (hc : c ≠ '\n') : c ∈ t.drop d := by
  rw [← List.take_append_drop d t] at hmem
  rcases List.mem_append.mp hmem with h1 | h2
  · exact absurd (mem_take_newline d t h c h1) hc
  · exact h2

lemma countLeadNl_append_core (s u : List Char) (h : ∃ c ∈ s, c ≠ '\n') :
    countLeadNl (s ++ u) = countLeadNl s := by
  induction s with
  | nil => simp at h
  | cons c0 s ih =>
    by_cases hc : c0 = '\n'
    · have h2 : ∃ c ∈ s, c ≠ '\n' := by
        obtain ⟨c, hmem, hne⟩ := h
        rcases List.mem_cons.mp hmem with rfl | hmem
        · exact absurd hc hne
        · exact ⟨c, hmem, hne⟩
      simp [countLeadNl_cons, hc, ih h2]
    · simp [countLeadNl_cons, hc]

lemma countLeadNl_take_of_le (m : Nat) (t : List Char) (h : countLeadNl t ≤ m) :
    countLeadNl (t.take m) = countLeadNl t := by
  induction t generalizing m with
  | nil => simp
  | cons c t ih =>
    rcases m with _ | m
    · rw [countLeadNl_cons] at h
      by_cases hc : c = '\n'
      · rw [if_pos hc] at h; omega
      · simp [countLeadNl_cons, countLeadNl_nil, hc]
    · rw [countLeadNl_cons] at h
      by_cases hc : c = '\n'
      · rw [if_pos hc] at h
        simp only [List.take_succ_cons, countLeadNl_cons, hc, if_true, ih m (by omega)]
      · simp [countLeadNl_cons, hc]

lemma countTrailNl_append_replicate (t : List Char) (k : Nat) :
    countTrailNl (t ++ List.replicate k '\n') = k + countTrailNl t := by
  rw [countTrailNl, List.reverse_append, List.reverse_replicate, countLeadNl_replicate_append]
  rfl

lemma countTrailNl_le_length (s : List Char) : countTrailNl s ≤ s.length := by
  simpa [countTrailNl] using countLeadNl_le_length s.reverse

lemma countTrailNl_take (d : Nat) (t : List Char) (h : d ≤ countTrailNl t) :
    countTrailNl (t.take (t.length - d)) = countTrailNl t - d := by
  have hdlen : d ≤ t.length := le_trans h (countTrailNl_le_length t)
  have hrev : (t.take (t.length - d)).reverse = t.reverse.drop d := by
    rw [List.reverse_take]
    congr 1
    omega
  rw [countTrailNl, hrev, countLeadNl_drop d t.reverse h]
  rfl

lemma countLead_add_countTrail_le (s : List Char) (h : ∃ c ∈ s, c ≠ '\n') :
    countLeadNl s + countTrailNl s ≤ s.length := by
  induction s with
  | nil => simp at h
  | cons c s ih =>
    by_cases hc : c = '\n'
    · have h2 : ∃ x ∈ s, x ≠ '\n' := by
        obtain ⟨x, hmem, hne⟩ := h
        rcases List.mem_cons.mp hmem with rfl | hmem
        · exact absurd hc hne
        · exact ⟨x, hmem, hne⟩
      have hcore : ∃ x ∈ s.reverse, x ≠ '\n' := by
        obtain ⟨x, hm, hx⟩ := h2
        exact ⟨x, List.mem_reverse.mpr hm, hx⟩
      have htr : countTrailNl (c :: s) = countTrailNl s := by
        rw [countTrailNl, List.reverse_cons, countLeadNl_append_core _ _ hcore]
        rfl
      rw [countLeadNl_cons, if_pos hc, htr]
      have := ih h2
      simp only [List.length_cons]
      omega
    · rw [countLeadNl_cons, if_neg hc]
      have := countTrailNl_le_length (c :: s)
      omega

end Po

namespace Po

lemma alignLead_lead (t b : List Char) : countLeadNl (alignLead t b) = countLeadNl b := by
  rw [alignLead]
  by_cases hlt : countLeadNl t < countLeadNl b
  · rw [if_pos hlt, countLeadNl_replicate_append]
    omega
  · by_cases hgt : countLeadNl b < countLeadNl t
    · rw [if_neg hlt, if_pos hgt, countLeadNl_drop _ _ (by omega)]
      omega
    · rw [if_neg hlt, if_neg hgt]
      omega

lemma alignLead_core (t b : List Char) (hc : ∃ c ∈ t, c ≠ '\n') :
    ∃ c ∈ alignLead t b, c ≠ '\n' := by
  obtain ⟨c, hm, hne⟩ := hc
  rw [alignLead]
  by_cases hlt : countLeadNl t < countLeadNl b
  · rw [if_pos hlt]
    exact ⟨c, List.mem_append_right _ hm, hne⟩
  · by_cases hgt : countLeadNl b < countLeadNl t
    · rw [if_neg hlt, if_pos hgt]
      exact ⟨c, mem_drop_of_ne_newline _ _ _ (by omega) hm hne, hne⟩
    · rw [if_neg hlt, if_neg hgt]
      exact ⟨c, hm, hne⟩

lemma alignTrail_counts (t1 b : List Char) (hcore : ∃ c ∈ t1, c ≠ '\n')
    (hlead : countLeadNl t1 = countLeadNl b) :
    countLeadNl (alignTrail t1 b) = countLeadNl b ∧
    countTrailNl (alignTrail t1 b) = countTrailNl b := by
  rw [alignTrail]
  by_cases htlt : countTrailNl t1 < countTrailNl b
  · rw [if_pos htlt]
    constructor
    · rw [countLeadNl_append_core _ _ hcore, hlead]
    · rw [countTrailNl_append_replicate]
      omega
  · by_cases htgt : countTrailNl b < countTrailNl t1
    · rw [if_neg htlt, if_pos htgt]
      have hsum := countLead_add_countTrail_le t1 hcore
      constructor
      · rw [countLeadNl_take_of_le _ _ (by omega), hlead]
      · rw [countTrailNl_take _ _ (by omega)]
        omega
    · rw [if_neg htlt, if_neg htgt]
      exact ⟨hlead, by omega⟩

lemma alignStr_counts (t b : List Char) (hc : ∃ c ∈ t, c ≠ '\n') :
    countLeadNl (alignStr t b) = countLeadNl b ∧
    countTrailNl (alignStr t b) = countTrailNl b := by
  have ht : ¬t.isEmpty = true := by
    obtain ⟨c, hm, _⟩ := hc
    cases t
    · simp at hm
    · simp
  rw [alignStr, if_neg ht]
  exact alignTrail_counts (alignLead t b) b (alignLead_core t b hc) (alignLead_lead t b)

lemma alignStr_nil (b : List Char) : alignStr [] b = [] := rfl

lemma alignStr_all_newline (t b : List Char) (h : ∀ c ∈ t, c = '\n') :
    ∀ c ∈ alignStr t b, c = '\n' := by
  intro c hm
  rw [alignStr] at hm
  by_cases ht : t.isEmpty = true
  · rw [if_pos ht] at hm
    exact h c hm
  · rw [if_neg ht] at hm
    have hlead : ∀ c ∈ alignLead t b, c = '\n' := by
      intro x hx
      rw [alignLead] at hx
      by_cases hlt : countLeadNl t < countLeadNl b
      · rw [if_pos hlt] at hx
        rcases List.mem_append.mp hx with h1 | h2
        · exact List.eq_of_mem_replicate h1
        · exact h x h2
      · by_cases hgt : countLeadNl b < countLeadNl t
        · rw [if_neg hlt, if_pos hgt] at hx
          exact h x (List.mem_of_mem_drop hx)
        · rw [if_neg hlt, if_neg hgt] at hx
          exact h x hx
    rw [alignTrail] at hm
    by_cases htlt : countTrailNl (alignLead t b) < countTrailNl b
    · rw [if_pos htlt] at hm
      rcases List.mem_append.mp hm with h1 | h2
      · exact hlead c h1
      · exact List.eq_of_mem_replicate h2
    · by_cases htgt : countTrailNl b < countTrailNl (alignLead t b)
      · rw [if_neg htlt, if_pos htgt] at hm
        exact hlead c (List.mem_of_mem_take hm)
      · rw [if_neg htlt, if_neg htgt] at hm
        exact hlead c hm

lemma alignStr_self (t : List Char) : alignStr t t = t := by
  by_cases ht : t.isEmpty = true
  · rw [alignStr, if_pos ht]
  · rw [alignStr, if_neg ht]
    have h1 : alignLead t t = t := by
      rw [alignLead, if_neg (lt_irrefl _), if_neg (lt_irrefl _)]
    rw [h1, alignTrail, if_neg (lt_irrefl _), if_neg (lt_irrefl _)]

lemma dLookup_map_fn (k : Nat) (m : List (Nat × List Char)) (f : Nat → List Char → List Char) :
    dLookup k (m.map (fun p => (p.1, f p.1 p.2))) = (dLookup k m).map (f k) := by
  induction m with
  | nil => simp [dLookup]
  | cons p m ih =>
    by_cases hk : k = p.1
    · simp [dLookup, hk]
    · simp [dLookup, hk, ih]

lemma pyStrip_eq_nil_of_all (s : List Char) (h : ∀ c ∈ s, pyIsSpace c = true) :
    pyStrip s = [] := by
  have h1 : s.dropWhile pyIsSpace = [] := List.dropWhile_eq_nil_iff.mpr (by
    intro a ha
    exact h a ha)
  rw [pyStrip, h1]
  rfl

lemma exists_not_space_of_pyStrip_ne_nil (s : List Char) (h : pyStrip s ≠ []) :
    ∃ c ∈ s, pyIsSpace c = false := by
  by_contra hall
  push_neg at hall
  refine h (pyStrip_eq_nil_of_all s ?_)
  intro c hc
  have := hall c hc
  cases hx : pyIsSpace c
  · exact absurd hx this
  · rfl

end Po

namespace Po

lemma core_of_strip_align (v b : List Char) (h : pyStrip (alignStr v b) ≠ []) :
    ∃ c ∈ v, c ≠ '\n' := by
  obtain ⟨c, hm, hsp⟩ := exists_not_space_of_pyStrip_ne_nil _ h
  by_contra hall
  push_neg at hall
  have hc := alignStr_all_newline v b hall c hm
  rw [hc] at hsp
  simp [pyIsSpace] at hsp

/-- Input for the C7 counterexample: a whitespace-only, non-empty
translation. -/
def exEntryC7 : Entry := ⟨"x\n".toList, [], " ".toList, []⟩

/-- C7 counterexample: the blank (but non-empty) translation `" "` is
not left untouched — the parity pass appends a newline to it.  Only
empty/absent values are skipped. -/
theorem c7_counterexample :
    pyStrip exEntryC7.msgstr = [] ∧
    (alignEntry exEntryC7).msgstr = (" \n").toList ∧
    (alignCatalog ⟨[exEntryC7], []⟩).entries.map Entry.msgstr ≠ [exEntryC7.msgstr] := by
  decide

/-- C7 amended: after the newline-parity pass every non-blank
translation value has leading and trailing line-break counts exactly
equal to its corresponding source text's (form 0 paired with the source
text, forms ≥ 1 with the plural source text); *empty* or absent values
are left untouched (a non-empty whitespace-only value may still be
adjusted, but stays blank). -/
theorem c7_amended (e : Entry) :
    (isPlural e = false → e.msgstr = [] → (alignEntry e).msgstr = []) ∧
    (isPlural e = true → ∀ k, dLookup k e.msgstr_plural = some [] →
      dLookup k (alignEntry e).msgstr_plural = some []) ∧
    (isPlural e = false → pyStrip (alignEntry e).msgstr ≠ [] →
      countLeadNl (alignEntry e).msgstr = countLeadNl e.msgid ∧
      countTrailNl (alignEntry e).msgstr = countTrailNl e.msgid) ∧
    (isPlural e = true → ∀ k v, dLookup k (alignEntry e).msgstr_plural = some v →
      pyStrip v ≠ [] →
      countLeadNl v = countLeadNl (if k = 0 then e.msgid else e.msgid_plural) ∧
      countTrailNl v = countTrailNl (if k = 0 then e.msgid else e.msgid_plural)) := by
  refine ⟨?_, ?_, ?_, ?_⟩
  · intro hp hm
    simp [alignEntry, hp, hm]
  · intro hp k hk
    by_cases hmp : e.msgstr_plural.isEmpty = true
    · simp only [alignEntry, hp, Bool.not_true, Bool.false_eq_true, if_false, hmp, if_true]
      exact hk
    · simp only [alignEntry, hp, Bool.not_true, Bool.false_eq_true, if_false, hmp, if_false]
      rw [dLookup_map_fn k e.msgstr_plural
        (fun i v => alignStr v (if i = 0 then e.msgid else e.msgid_plural)), hk]
      simp [alignStr_nil]
  · intro hp hs
    by_cases hm : e.msgstr.isEmpty = true
    · rw [alignEntry] at hs ⊢
      simp only [hp, Bool.not_false, if_true, hm] at hs
      have : e.msgstr = [] := by
        cases hx : e.msgstr
        · rfl
        · rw [hx] at hm
          simp at hm
      rw [this] at hs
      simp [pyStrip] at hs
    · have hpost : (alignEntry e).msgstr = alignStr e.msgstr e.msgid := by
        simp [alignEntry, hp, hm]
      rw [hpost] at hs ⊢
      exact alignStr_counts e.msgstr e.msgid (core_of_strip_align _ _ hs)
  · intro hp k v hk hv
    by_cases hmp : e.msgstr_plural.isEmpty = true
    · simp only [alignEntry, hp, Bool.not_true, Bool.false_eq_true, if_false, hmp,
        if_true] at hk
      have hnil : e.msgstr_plural = [] := by
        cases hx : e.msgstr_plural
        · rfl
        · rw [hx] at hmp
          simp at hmp
      rw [hnil] at hk
      simp [dLookup] at hk
    · simp only [alignEntry, hp, Bool.not_true, Bool.false_eq_true, if_false, hmp,
        if_false] at hk
      rw [dLookup_map_fn k e.msgstr_plural
        (fun i v => alignStr v (if i = 0 then e.msgid else e.msgid_plural))] at hk
      rcases hx : dLookup k e.msgstr_plural with _ | v0
      · rw [hx] at hk
        simp at hk
      · rw [hx] at hk
        simp only [Option.map_some', Option.some.injEq] at hk
        rw [← hk] at hv ⊢
        exact alignStr_counts v0 _ (core_of_strip_align _ _ hv)

/-- Entry for the C7 witness: the spec's newline-parity example. -/
def exEntryC7w : Entry := ⟨"\nHello\n".toList, [], "XY".toList, []⟩

/-- C7 witness: the spec's newline example — after the pass the
non-blank translation has one leading and one trailing break, matching
the source. -/
theorem c7_witness :
    (isPlural exEntryC7w = false ∧ pyStrip (alignEntry exEntryC7w).msgstr ≠ []) ∧
    (countLeadNl (alignEntry exEntryC7w).msgstr = countLeadNl exEntryC7w.msgid ∧
      countTrailNl (alignEntry exEntryC7w).msgstr = countTrailNl exEntryC7w.msgid) :=
  ⟨⟨by decide, by decide⟩, (c7_amended exEntryC7w).2.2.1 (by decide) (by decide)⟩

end Po

namespace Po

lemma greedySome_mem {p : Char → Bool} {s x : List Char} (h : x ∈ greedySome p s) :
    ∃ j, 1 ≤ j ∧ j ≤ (s.takeWhile p).length ∧ x = s.drop j := by
  simp only [greedySome, List.mem_map, List.mem_range] at h
  obtain ⟨i, hi, hx⟩ := h
  exact ⟨(s.takeWhile p).length - i, by omega, by omega, hx.symm⟩

lemma greedySome_suffix {p : Char → Bool} {s x : List Char} (h : x ∈ greedySome p s) :
    x <:+ s := by
  obtain ⟨j, _, _, hx⟩ := greedySome_mem h
  rw [hx]
  exact List.drop_suffix j s

lemma greedyMany_suffix {p : Char → Bool} {s x : List Char} (h : x ∈ greedyMany p s) :
    x <:+ s := by
  simp only [greedyMany, List.mem_map, List.mem_range] at h
  obtain ⟨i, _, hx⟩ := h
  rw [← hx]
  exact List.drop_suffix _ s

lemma litCand_suffix {lit s x : List Char} (h : x ∈ litCand lit s) : x <:+ s := by
  rw [litCand] at h
  by_cases hp : isPfx lit s = true
  · rw [if_pos hp] at h
    rcases List.mem_singleton.mp h with rfl
    exact List.drop_suffix _ s
  · rw [if_neg hp] at h
    simp at h

lemma posParenCand_suffix {s x : List Char} (h : x ∈ posParenCand s) : x <:+ s := by
  unfold posParenCand at h
  split at h
  next r =>
    split at h
    next r2 heq =>
      split at h
      · rcases List.mem_singleton.mp h with rfl
        have h1 : ')' :: x <:+ r := by
          rw [← heq]
          exact List.drop_suffix _ r
        exact ((List.suffix_cons ')' x).trans h1).trans (List.suffix_cons '(' r)
      · simp at h
    next => simp at h
  next => simp at h

lemma posCands_suffix {s x : List Char} (h : x ∈ posCands s) : x <:+ s := by
  simp only [posCands, List.mem_append] at h
  rcases h with (h | h) | h
  · simp only [List.mem_filterMap] at h
    obtain ⟨r, hr, hmap⟩ := h
    split at hmap
    next r2 =>
      injection hmap with hx
      subst hx
      exact (List.suffix_cons '$' _).trans (greedySome_suffix hr)
    next => cases hmap
  · exact posParenCand_suffix h
  · rcases List.mem_singleton.mp h with rfl
    exact List.suffix_refl _

lemma flagsCands_suffix {s x : List Char} (h : x ∈ flagsCands s) : x <:+ s :=
  greedyMany_suffix h

lemma widthCands_suffix {s x : List Char} (h : x ∈ widthCands s) : x <:+ s := by
  simp only [widthCands, List.mem_append] at h
  rcases h with (h | h) | h
  · split at h
    next r =>
      rcases List.mem_singleton.mp h with rfl
      exact List.suffix_cons '*' _
    next => simp at h
  · exact greedySome_suffix h
  · rcases List.mem_singleton.mp h with rfl
    exact List.suffix_refl _

lemma precCands_suffix {s x : List Char} (h : x ∈ precCands s) : x <:+ s := by
  simp only [precCands, List.mem_append] at h
  rcases h with h | h
  · split at h
    next r =>
      simp only [List.mem_append] at h
      rcases h with h | h
      · split at h
        next r2 =>
          rcases List.mem_singleton.mp h with rfl
          exact ((List.suffix_cons '*' _).trans (List.suffix_cons '.' _))
        next => simp at h
      · exact (greedySome_suffix h).trans (List.suffix_cons '.' r)
    next => simp at h
  · rcases List.mem_singleton.mp h with rfl
    exact List.suffix_refl _

lemma lenCands_suffix {s x : List Char} (h : x ∈ lenCands s) : x <:+ s := by
  simp only [lenCands, List.mem_append] at h
  rcases h with ((((((((h | h) | h) | h) | h) | h) | h) | h) | h)
  all_goals first
    | exact litCand_suffix h
    | (rcases List.mem_singleton.mp h with rfl; exact List.suffix_refl _)

end Po

namespace Po

lemma conv_not_space {c : Char} (h : convChars.contains c = true) : pyIsSpace c = false := by
  have hm : c ∈ convChars := by simpa using h
  fin_cases hm <;> decide

lemma digit_not_space {c : Char} (h : isDigitB c = true) : pyIsSpace c = false := by
  cases hx : pyIsSpace c
  · rfl
  · exfalso
    simp only [pyIsSpace, Bool.or_eq_true, decide_eq_true_eq] at hx
    rcases hx with ((((rfl | rfl) | rfl) | rfl) | rfl) | rfl <;> simp [isDigitB] at h

lemma take_append_shape (u : List Char) (c : Char) (r : List Char) :
    (u ++ c :: r).take (u.length + 1) = u ++ [c] := by
  rw [List.take_append_eq_append_take]
  simp

lemma matchPrintfAt_shape {s r : List Char} (h : matchPrintfAt s = some r) :
    ∃ u c, s = u ++ c :: r ∧ pyIsSpace c = false := by
  unfold matchPrintfAt at h
  split at h
  next s1 =>
    split at h
    · cases h
    · obtain ⟨s2, hs2, h⟩ := List.exists_of_findSome?_eq_some h
      obtain ⟨s3, hs3, h⟩ := List.exists_of_findSome?_eq_some h
      obtain ⟨s4, hs4, h⟩ := List.exists_of_findSome?_eq_some h
      obtain ⟨s5, hs5, h⟩ := List.exists_of_findSome?_eq_some h
      obtain ⟨s6, hs6, h⟩ := List.exists_of_findSome?_eq_some h
      have hsfx : s6 <:+ s1 :=
        ((((lenCands_suffix hs6).trans (precCands_suffix hs5)).trans
          (widthCands_suffix hs4)).trans (flagsCands_suffix hs3)).trans (posCands_suffix hs2)
      rcases s6 with _ | ⟨c, r6⟩
      · simp [convStep] at h
      · rw [convStep] at h
        split at h
        next hconv =>
          injection h with hr
          subst hr
          obtain ⟨u1, hu1⟩ := hsfx
          refine ⟨'%' :: u1, c, ?_, conv_not_space hconv⟩
          rw [← hu1]
          rfl
        next => cases h
  next => cases h

lemma takeWhile_drop_shape (p : Char → Bool) :
    ∀ (s : List Char) (j : Nat), 1 ≤ j → j ≤ (s.takeWhile p).length →
      ∃ u c, s = u ++ c :: s.drop j ∧ p c = true := by
  intro s
  induction s with
  | nil =>
    intro j h1 h2
    simp at h2
    omega
  | cons c0 s ih =>
    intro j h1 h2
    by_cases hp : p c0
    · rcases j with _ | j
      · omega
      · rcases Nat.eq_zero_or_pos j with rfl | hj
        · exact ⟨[], c0, by simp, hp⟩
        · rw [List.takeWhile_cons, if_pos hp] at h2
          simp only [List.length_cons] at h2
          obtain ⟨u, c, heq, hpc⟩ := ih j hj (by omega)
          refine ⟨c0 :: u, c, ?_, hpc⟩
          rw [List.drop_succ_cons]
          exact congrArg (fun l => c0 :: l) heq
    · rw [List.takeWhile_cons, if_neg hp] at h2
      simp at h2
      omega

lemma matchQtAt_shape {s r : List Char} (h : matchQtAt s = some r) :
    ∃ u c, s = u ++ c :: r ∧ pyIsSpace c = false := by
  unfold matchQtAt at h
  split at h
  next s1 =>
    split at h
    · cases h
    · obtain ⟨r0, hr0, hk⟩ := List.exists_of_findSome?_eq_some h
      split at hk
      · injection hk with hr
        subst hr
        obtain ⟨j, hj1, hj2, hdrop⟩ := greedySome_mem hr0
        obtain ⟨u, c, heq, hpc⟩ := takeWhile_drop_shape isDigitB s1 j hj1 hj2
        rw [← hdrop] at heq
        refine ⟨'%' :: u, c, ?_, digit_not_space hpc⟩
        rw [heq]
        rfl
      · cases hk
  next => cases h

lemma matchBraceAt_shape {s r : List Char} (h : matchBraceAt s = some r) :
    ∃ u c, s = u ++ c :: r ∧ pyIsSpace c = false := by
  unfold matchBraceAt at h
  split at h
  next s1 =>
    obtain ⟨s2, hs2, h⟩ := List.exists_of_findSome?_eq_some h
    obtain ⟨s3, hs3, h⟩ := List.exists_of_findSome?_eq_some h
    have hsfx : s3 <:+ s1 := by
      have h2 : s2 <:+ s1 := by
        rcases List.mem_append.mp hs2 with h2 | h2
        · exact greedySome_suffix h2
        · exact greedySome_suffix h2
      exact (greedyMany_suffix hs3).trans h2
    split at h
    next r2 =>
      injection h with hr
      subst hr
      obtain ⟨u1, hu1⟩ := hsfx
      refine ⟨'{' :: u1, '}', ?_, by decide⟩
      rw [← hu1]
      rfl
    next => cases h
  next => cases h

end Po

namespace Po

lemma finditerGo_token (matchAt : List Char → Option (List Char))
    (hM : ∀ s r, matchAt s = some r → ∃ u c, s = u ++ c :: r ∧ pyIsSpace c = false) :
    ∀ (fuel : Nat) (s t : List Char), t ∈ finditerGo matchAt fuel s →
      ∃ u c, t = u ++ [c] ∧ pyIsSpace c = false := by
  intro fuel
  induction fuel with
  | zero =>
    intro s t ht
    simp [finditerGo] at ht
  | succ fuel ih =>
    intro s t ht
    rcases s with _ | ⟨c0, rest⟩
    · simp [finditerGo] at ht
    · rcases hm : matchAt (c0 :: rest) with _ | r
      · rw [finditerGo, hm] at ht
        exact ih rest t ht
      · rw [finditerGo, hm] at ht
        have ht2 : t ∈ (if r.length < rest.length + 1 then
            List.take (rest.length + 1 - r.length) (c0 :: rest) :: finditerGo matchAt fuel r
          else finditerGo matchAt fuel rest) := ht
        by_cases hlen : r.length < rest.length + 1
        · rw [if_pos hlen] at ht2
          rcases List.mem_cons.mp ht2 with rfl | hrec
          · obtain ⟨u, c, heq, hc⟩ := hM _ _ hm
            have hul : rest.length + 1 - r.length = u.length + 1 := by
              have : (c0 :: rest).length = (u ++ c :: r).length := by rw [heq]
              simp at this
              omega
            rw [hul, heq, take_append_shape]
            exact ⟨u, c, rfl, hc⟩
          · exact ih r t hrec
        · rw [if_neg hlen] at ht2
          exact ih rest t ht2

lemma dedupGo_subset : ∀ (seen l : List (List Char)) (x : List Char),
    x ∈ dedupGo seen l → x ∈ l := by
  intro seen l
  induction l generalizing seen with
  | nil => intro x hx; simp [dedupGo] at hx
  | cons t ts ih =>
    intro x hx
    rw [dedupGo] at hx
    by_cases hs : t ∈ seen
    · rw [if_pos hs] at hx
      exact List.mem_cons_of_mem t (ih seen x hx)
    · rw [if_neg hs] at hx
      rcases List.mem_cons.mp hx with rfl | hx2
      · exact List.mem_cons_self x ts
      · exact List.mem_cons_of_mem t (ih (t :: seen) x hx2)

lemma extract_token_shape {s t : List Char} (h : t ∈ extractPlaceholders s) :
    ∃ u c, t = u ++ [c] ∧ pyIsSpace c = false := by
  have h2 := dedupGo_subset [] _ t h
  rcases List.mem_append.mp h2 with h3 | h3
  · rcases List.mem_append.mp h3 with h4 | h4
    · exact finditerGo_token matchPrintfAt (fun s r => matchPrintfAt_shape) _ _ _ h4
    · exact finditerGo_token matchQtAt (fun s r => matchQtAt_shape) _ _ _ h4
  · exact finditerGo_token matchBraceAt (fun s r => matchBraceAt_shape) _ _ _ h3

lemma srcToksOf_shape {e : Entry} {t : List Char} (h : t ∈ srcToksOf e) :
    ∃ u c, t = u ++ [c] ∧ pyIsSpace c = false := by
  have h2 := dedupGo_subset [] _ t h
  rcases List.mem_append.mp h2 with h3 | h3
  · exact extract_token_shape h3
  · by_cases hp : isPlural e = true
    · rw [if_pos hp] at h3
      exact extract_token_shape h3
    · rw [if_neg hp] at h3
      simp at h3

lemma pyRstrip_append_last (u : List Char) (c : Char) (hc : pyIsSpace c = false) :
    pyRstrip (u ++ [c]) = u ++ [c] := by
  rw [pyRstrip, List.reverse_append]
  simp only [List.reverse_singleton, List.singleton_append, List.dropWhile_cons, hc,
    Bool.false_eq_true, if_false]
  simp

lemma joinSpace_shape (ts : List (List Char)) (hne : ts ≠ [])
    (hall : ∀ t ∈ ts, ∃ u c, t = u ++ [c] ∧ pyIsSpace c = false) :
    ∃ u c, joinSpace ts = u ++ [c] ∧ pyIsSpace c = false := by
  induction ts with
  | nil => exact absurd rfl hne
  | cons t ts ih =>
    rcases ts with _ | ⟨t2, ts2⟩
    · simpa [joinSpace] using hall t (List.mem_cons_self t [])
    · obtain ⟨u, c, hj, hc⟩ := ih (List.cons_ne_nil _ _) (fun x hx => hall x (List.mem_cons_of_mem t hx))
      refine ⟨t ++ ' ' :: u, c, ?_, hc⟩
      rw [joinSpace, hj]
      · simp
      · intro hcontra
        cases hcontra

end Po

namespace Po

/-- C5: for every entry and every non-blank translation value, the
placeholder-repair pass appends to the end of the value, space-joined
and space-separated from it, exactly those placeholder tokens of the
source text(s) that are absent from the value (in source order), and
never removes anything — the value is always a prefix of the result;
plural forms are repaired independently and the single translation is
repaired when non-blank. -/
theorem c5_placeholder_repair (e : Entry) (v : List Char) (hv : pyStrip v ≠ []) :
    (((srcToksOf e).filter (fun t => !t.isEmpty)).filter
        (fun t => decide (t ∉ extractPlaceholders v)) = [] →
      ensureBySet v (srcToksOf e) = v) ∧
    (((srcToksOf e).filter (fun t => !t.isEmpty)).filter
        (fun t => decide (t ∉ extractPlaceholders v)) ≠ [] →
      ensureBySet v (srcToksOf e) =
        v ++ (if v.isEmpty || v.getLast? = some ' ' || v.getLast? = some '　' then [] else [' ']) ++
          joinSpace (((srcToksOf e).filter (fun t => !t.isEmpty)).filter
            (fun t => decide (t ∉ extractPlaceholders v)))) ∧
    (∃ rest, ensureBySet v (srcToksOf e) = v ++ rest) ∧
    (isPlural e = true → ∀ k, dLookup k (ensureEntry e).msgstr_plural =
      (dLookup k e.msgstr_plural).map
        (fun w => if (pyStrip w).isEmpty then w else ensureBySet w (srcToksOf e))) ∧
    (isPlural e = false → e.msgstr = v → (ensureEntry e).msgstr = ensureBySet v (srcToksOf e)) := by
  have h1 : ((srcToksOf e).filter (fun t => !t.isEmpty)).filter
      (fun t => decide (t ∉ extractPlaceholders v)) = [] →
      ensureBySet v (srcToksOf e) = v := by
    intro hmiss
    simp only [ensureBySet]
    rw [hmiss]
    rfl
  have h2 : ((srcToksOf e).filter (fun t => !t.isEmpty)).filter
      (fun t => decide (t ∉ extractPlaceholders v)) ≠ [] →
      ensureBySet v (srcToksOf e) =
        v ++ (if v.isEmpty || v.getLast? = some ' ' || v.getLast? = some '　' then [] else [' ']) ++
          joinSpace (((srcToksOf e).filter (fun t => !t.isEmpty)).filter
            (fun t => decide (t ∉ extractPlaceholders v))) := by
    intro hmiss
    have hne : ¬(((srcToksOf e).filter (fun t => !t.isEmpty)).filter
        (fun t => decide (t ∉ extractPlaceholders v))).isEmpty = true := by
      intro hx
      exact hmiss (List.isEmpty_iff.mp hx)
    have hshape : ∀ t ∈ ((srcToksOf e).filter (fun t => !t.isEmpty)).filter
        (fun t => decide (t ∉ extractPlaceholders v)),
        ∃ u c, t = u ++ [c] ∧ pyIsSpace c = false := by
      intro t ht
      exact srcToksOf_shape (List.mem_of_mem_filter (List.mem_of_mem_filter ht))
    obtain ⟨u, c, hj, hc⟩ := joinSpace_shape _ hmiss hshape
    simp only [ensureBySet]
    rw [if_neg hne, hj, ← List.append_assoc, pyRstrip_append_last _ _ hc, List.append_assoc]
  refine ⟨h1, h2, ?_, ?_, ?_⟩
  · by_cases hmiss : ((srcToksOf e).filter (fun t => !t.isEmpty)).filter
        (fun t => decide (t ∉ extractPlaceholders v)) = []
    · exact ⟨[], by rw [h1 hmiss]; simp⟩
    · refine ⟨(if v.isEmpty || v.getLast? = some ' ' || v.getLast? = some '　' then []
          else [' ']) ++
          joinSpace (((srcToksOf e).filter (fun t => !t.isEmpty)).filter
            (fun t => decide (t ∉ extractPlaceholders v))), ?_⟩
      rw [h2 hmiss, List.append_assoc]
  · intro hp k
    simp only [ensureEntry, hp, if_true]
    rw [dLookup_map_fn k e.msgstr_plural
      (fun i w => if (pyStrip w).isEmpty then w else ensureBySet w (srcToksOf e))]
  · intro hp hm
    have hvne : ¬v.isEmpty = true := by
      intro hx
      rw [List.isEmpty_iff.mp hx] at hv
      exact hv rfl
    have hcond : (!e.msgstr.isEmpty && !(pyStrip e.msgstr).isEmpty) = true := by
      rw [hm]
      simp only [Bool.and_eq_true, Bool.not_eq_true']
      constructor
      · cases hx : v.isEmpty
        · rfl
        · exact absurd hx hvne
      · cases hx : (pyStrip v).isEmpty
        · rfl
        · exact absurd (List.isEmpty_iff.mp hx) hv
    simp only [ensureEntry, hp, Bool.false_eq_true, if_false, hm]
    rw [hm] at hcond
    split
    · rfl
    next hno => exact absurd hcond hno

/-- Entry for the C5 witness: the spec's placeholder-repair example
source with a translation missing `%d`. -/
def exEntryC5w : Entry := ⟨"Delete %d item(s)?".toList, [], "XYZ".toList, []⟩

/-- C5 witness: repairing the non-blank value `"XYZ"` against the
example source appends the missing `%d`. -/
theorem c5_witness :
    pyStrip ("XYZ").toList ≠ [] ∧
    ensureBySet ("XYZ").toList (srcToksOf exEntryC5w) = ("XYZ %d").toList :=
  ⟨by decide, by
    have h := (c5_placeholder_repair exEntryC5w ("XYZ").toList (by decide)).2.1 (by decide)
    rw [h]
    decide⟩

end Po

namespace Po

/-- Substring test: does `pat` occur (as a contiguous block) in `s`? -/
def hasSub (pat : List Char) : List Char → Bool
  | [] => isPfx pat []
  | c :: r => isPfx pat (c :: r) || hasSub pat r

lemma replaceAllGo_fuel_irrel (pat rep : List Char) :
    ∀ (f1 : Nat), ∀ (f2 : Nat) (s : List Char), s.length ≤ f1 → s.length ≤ f2 →
      replaceAllGo pat rep f1 s = replaceAllGo pat rep f2 s := by
  intro f1
  induction f1 with
  | zero =>
    intro f2 s h1 h2
    have hs : s = [] := List.eq_nil_of_length_eq_zero (by omega)
    subst hs
    cases f2 <;> rfl
  | succ f1 ih =>
    intro f2 s h1 h2
    rcases s with _ | ⟨c, rest⟩
    · cases f2 <;> rfl
    · rcases f2 with _ | f2
      · simp at h2
      · rw [replaceAllGo, replaceAllGo]
        by_cases hcond : 0 < pat.length ∧ isPfx pat (c :: rest)
        · obtain ⟨hp1, hp2⟩ := hcond
          rw [if_pos ⟨hp1, hp2⟩, if_pos ⟨hp1, hp2⟩]
          have hlen : ((c :: rest).drop pat.length).length ≤ f1 := by
            simp only [List.length_drop, List.length_cons]
            simp only [List.length_cons] at h1
            omega
          have hlen2 : ((c :: rest).drop pat.length).length ≤ f2 := by
            simp only [List.length_drop, List.length_cons]
            simp only [List.length_cons] at h2
            omega
          rw [ih f2 _ hlen hlen2]
        · rw [if_neg hcond, if_neg hcond]
          have hlen : rest.length ≤ f1 := by
            simp only [List.length_cons] at h1
            omega
          have hlen2 : rest.length ≤ f2 := by
            simp only [List.length_cons] at h2
            omega
          rw [ih f2 rest hlen hlen2]

lemma replaceAll_cons (pat rep : List Char) (c : Char) (rest : List Char) :
    replaceAll pat rep (c :: rest) =
      if 0 < pat.length ∧ isPfx pat (c :: rest) then
        rep ++ replaceAll pat rep ((c :: rest).drop pat.length)
      else c :: replaceAll pat rep rest := by
  rw [replaceAll]
  simp only [List.length_cons]
  rw [replaceAllGo]
  by_cases hcond : 0 < pat.length ∧ isPfx pat (c :: rest)
  · obtain ⟨hp1, hp2⟩ := hcond
    rw [if_pos ⟨hp1, hp2⟩, if_pos ⟨hp1, hp2⟩, replaceAll]
    congr 1
    exact replaceAllGo_fuel_irrel pat rep rest.length _ _
      (by simp only [List.length_drop, List.length_cons]; omega)
      (le_refl _)
  · rw [if_neg hcond, if_neg hcond]
    rfl

lemma replaceAll_nil (pat rep : List Char) : replaceAll pat rep [] = [] := rfl

lemma replaceAll_head_not_mem (p0 : Char) (pat2 rep : List Char) :
    ∀ s : List Char, p0 ∉ s → replaceAll (p0 :: pat2) rep s = s := by
  intro s
  induction s with
  | nil => intro _; rfl
  | cons c rest ih =>
    intro hmem
    have hne : p0 ≠ c := fun h => hmem (h ▸ List.mem_cons_self c rest)
    rw [replaceAll_cons]
    have hpfx : isPfx (p0 :: pat2) (c :: rest) = false := by
      simp [isPfx, hne]
    rw [if_neg (by simp [hpfx])]
    rw [ih (fun h => hmem (List.mem_cons_of_mem c h))]

end Po

namespace Po

lemma esc_cons_nl (t : List Char) :
    replaceAll ['\n'] ['\\', 'n'] ('\n' :: t) = '\\' :: 'n' :: replaceAll ['\n'] ['\\', 'n'] t := by
  rw [replaceAll_cons, if_pos ⟨by decide, by simp [isPfx]⟩]
  rfl

lemma esc_cons_other (c : Char) (t : List Char) (hc : c ≠ '\n') :
    replaceAll ['\n'] ['\\', 'n'] (c :: t) = c :: replaceAll ['\n'] ['\\', 'n'] t := by
  rw [replaceAll_cons, if_neg]
  intro hcond
  have := hcond.2
  simp only [isPfx, Bool.and_eq_true, decide_eq_true_eq] at this
  exact hc this.1.symm

lemma unesc_esc (s : List Char) (hno : hasSub ['\\', 'n'] s = false) :
    replaceAll ['\\', 'n'] ['\n'] (replaceAll ['\n'] ['\\', 'n'] s) = s := by
  induction s with
  | nil => rfl
  | cons c t ih =>
    have hno2 : hasSub ['\\', 'n'] t = false := by
      rw [hasSub, Bool.or_eq_false_iff] at hno
      exact hno.2
    have hnopfx : isPfx ['\\', 'n'] (c :: t) = false := by
      rw [hasSub, Bool.or_eq_false_iff] at hno
      exact hno.1
    by_cases hc : c = '\n'
    · subst hc
      rw [esc_cons_nl, replaceAll_cons, if_pos ⟨by decide, by simp [isPfx]⟩]
      simp only [List.length_cons, List.length_nil, List.drop_succ_cons, List.drop_zero,
        List.cons_append, List.nil_append]
      rw [ih hno2]
    · rw [esc_cons_other c t hc]
      have hpfx2 : isPfx ['\\', 'n'] (c :: replaceAll ['\n'] ['\\', 'n'] t) = false := by
        by_cases hb : c = '\\'
        · subst hb
          rcases t with _ | ⟨d, t2⟩
          · rfl
          · by_cases hd : d = '\n'
            · subst hd
              rw [esc_cons_nl]
              simp [isPfx]
            · rw [esc_cons_other d t2 hd]
              have hdn : d ≠ 'n' := by
                intro hdd
                subst hdd
                simp [isPfx] at hnopfx
              simp [isPfx, Ne.symm hdn]
        · simp [isPfx, Ne.symm hb]
      rw [replaceAll_cons, if_neg (by simp [hpfx2]), ih hno2]

end Po

namespace Po

lemma digitChar_is_digit (m : Nat) (h : m < 10) : isDigitB (Char.ofNat (48 + m)) = true := by
  interval_cases m <;> decide

lemma natCharsGo_digits : ∀ (fuel n : Nat), n < fuel →
    natCharsGo fuel n ≠ [] ∧ ∀ c ∈ natCharsGo fuel n, isDigitB c = true := by
  intro fuel
  induction fuel with
  | zero => intro n h; omega
  | succ fuel ih =>
    intro n h
    by_cases h10 : n < 10
    · rw [natCharsGo, if_pos h10]
      refine ⟨by simp, ?_⟩
      intro c hc
      rcases List.mem_singleton.mp hc with rfl
      exact digitChar_is_digit n h10
    · rw [natCharsGo, if_neg h10]
      have hdiv : n / 10 < fuel := by
        have := Nat.div_lt_self (by omega : 0 < n) (by omega : 1 < 10)
        omega
      obtain ⟨hne, hall⟩ := ih (n / 10) hdiv
      refine ⟨by simp, ?_⟩
      intro c hc
      rcases List.mem_append.mp hc with h1 | h1
      · exact hall c h1
      · rcases List.mem_singleton.mp h1 with rfl
        exact digitChar_is_digit (n % 10) (Nat.mod_lt n (by omega))

lemma natChars_digits (n : Nat) :
    natChars n ≠ [] ∧ ∀ c ∈ natChars n, isDigitB c = true :=
  natCharsGo_digits (n + 1) n (by omega)

lemma takeWhile_nil_of_head (p : Char → Bool) (c : Char) (rest : List Char)
    (hc : p c = false) : (c :: rest).takeWhile p = [] := by
  rw [List.takeWhile_cons, if_neg (by simp [hc])]

lemma takeWhile_append_all (p : Char → Bool) :
    ∀ (a : List Char) (b0 : Char) (bs : List Char), (∀ c ∈ a, p c = true) → p b0 = false →
      (a ++ b0 :: bs).takeWhile p = a := by
  intro a
  induction a with
  | nil =>
    intro b0 bs _ hb
    exact takeWhile_nil_of_head p b0 bs hb
  | cons c a ih =>
    intro b0 bs hall hb
    rw [List.cons_append, List.takeWhile_cons, if_pos (by simp [hall c (List.mem_cons_self c a)])]
    rw [ih b0 bs (fun x hx => hall x (List.mem_cons_of_mem c hx)) hb]

lemma numMatchLen_numbered (k : Nat) (t : List Char) :
    numMatchLen (natChars k ++ '.' :: ' ' :: t) = some ((natChars k).length + 2) := by
  obtain ⟨hne, hdig⟩ := natChars_digits k
  have hws : ((natChars k ++ '.' :: ' ' :: t).takeWhile pyIsSpace) = [] := by
    rcases hx : natChars k with _ | ⟨c0, cs⟩
    · exact absurd hx hne
    · rw [List.cons_append]
      refine takeWhile_nil_of_head pyIsSpace c0 _ ?_
      exact digit_not_space (hdig c0 (by rw [hx]; exact List.mem_cons_self c0 cs))
  have hds : ((natChars k ++ '.' :: ' ' :: t).takeWhile isDigitB) = natChars k :=
    takeWhile_append_all isDigitB (natChars k) '.' (' ' :: t) hdig (by decide)
  rw [numMatchLen]
  simp only [hws, List.length_nil, List.drop_zero, hds]
  rw [if_pos]
  · simp
  · constructor
    · have : 0 < (natChars k).length := by
        rcases hx : natChars k with _ | ⟨c0, cs⟩
        · exact absurd hx hne
        · simp
      omega
    · rw [List.drop_left]
      simp [isPfx]

lemma isNumberedLine_numbered (k : Nat) (t : List Char) :
    isNumberedLine (natChars k ++ '.' :: ' ' :: t) = true := by
  rw [isNumberedLine, numMatchLen_numbered]
  rfl

lemma cleanLine_numbered (k : Nat) (t : List Char) :
    cleanLine (natChars k ++ '.' :: ' ' :: t) = replaceAll ['\\', 'n'] ['\n'] t := by
  rw [cleanLine, numMatchLen_numbered]
  have hdrop : (natChars k ++ '.' :: ' ' :: t).drop ((natChars k).length + 2) = t := by
    rw [List.drop_append_eq_append_drop]
    simp
  show replaceAll ['\\', 'n'] ['\n']
      ((natChars k ++ '.' :: ' ' :: t).drop ((natChars k).length + 2)) =
    replaceAll ['\\', 'n'] ['\n'] t
  rw [hdrop]

lemma cleanLine_nil : cleanLine [] = [] := rfl

lemma numberFrom_getD : ∀ (l : List (List Char)) (n i : Nat), i < l.length →
    (numberFrom n l).getD i [] = natChars (n + i) ++ '.' :: ' ' :: l.getD i [] := by
  intro l
  induction l with
  | nil => intro n i h; simp at h
  | cons t ts ih =>
    intro n i h
    rcases i with _ | i
    · simp [numberFrom]
    · rw [numberFrom]
      simp only [List.getD_cons_succ]
      rw [ih (n + 1) i (by simpa using h)]
      congr 2
      omega

lemma numberFrom_all_numbered : ∀ (l : List (List Char)) (n : Nat),
    ∀ line ∈ numberFrom n l, isNumberedLine line = true := by
  intro l
  induction l with
  | nil => intro n line h; simp [numberFrom] at h
  | cons t ts ih =>
    intro n line h
    rw [numberFrom] at h
    rcases List.mem_cons.mp h with rfl | h2
    · exact isNumberedLine_numbered n t
    · exact ih (n + 1) line h2

end Po

namespace Po

lemma parse_singles (pc : Nat) (ts : List (List Char)) :
    ∀ (es : List Entry) (ti : Nat), (∀ e ∈ es, isPlural e = false) → ti + es.length ≤ ts.length →
      parseNumberedGo pc ts es ti =
        some ((List.range es.length).map
          (fun j => Parsed.single (cleanLine (ts.getD (ti + j) [])))) := by
  intro es
  induction es with
  | nil =>
    intro ti _ _
    simp [parseNumberedGo]
  | cons e es ih =>
    intro ti hall hlen
    have hp : isPlural e = false := hall e (List.mem_cons_self e es)
    have hti : ¬ts.length ≤ ti := by
      simp only [List.length_cons] at hlen
      omega
    rw [parseNumberedGo]
    simp only [hp, Bool.false_eq_true, if_false, hti, if_false]
    rw [ih (ti + 1) (fun x hx => hall x (List.mem_cons_of_mem e hx))
      (by simp only [List.length_cons] at hlen ⊢; omega)]
    simp only [Option.map_some', Option.some.injEq, List.length_cons,
      List.range_succ_eq_map, List.map_cons, List.map_map]
    congr 1
    apply List.map_congr_left
    intro j hj
    show Parsed.single (cleanLine (ts.getD (ti + 1 + j) [])) =
      Parsed.single (cleanLine (ts.getD (ti + (j + 1)) []))
    have harith : ti + 1 + j = ti + (j + 1) := by omega
    rw [harith]

lemma applyParsed_range :
    ∀ (entries : List Entry) (F : Nat → List Char),
      (∀ e ∈ entries, isPlural e = false) →
      (∀ j, F j = ((entries.filter exportable).map Entry.msgid).getD j []) →
      applyParsed entries ((List.range (entries.filter exportable).length).map
        (fun j => Parsed.single (F j))) =
      entries.map (fun e => if exportable e then { e with msgstr := e.msgid } else e) := by
  intro entries
  induction entries with
  | nil => intro F _ _; rfl
  | cons e es ih =>
    intro F hall hF
    by_cases hx : exportable e = true
    · rw [List.filter_cons_of_pos (by simp [hx])]
      simp only [List.length_cons, List.range_succ_eq_map, List.map_cons, List.map_map]
      rw [applyParsed]
      simp only [hx, if_true]
      have hF0 : F 0 = e.msgid := by
        rw [hF 0, List.filter_cons_of_pos (by simp [hx])]
        simp
      have happ : applyOne e (Parsed.single (F 0)) = { e with msgstr := e.msgid } := by
        rw [applyOne]
        simp only [hall e (List.mem_cons_self e es), Bool.false_eq_true, if_false, hF0]
      have hrec := ih (fun j => F (j + 1)) (fun x hx2 => hall x (List.mem_cons_of_mem e hx2))
        (fun j => by
          show F (j + 1) = _
          rw [hF (j + 1), List.filter_cons_of_pos (by simp [hx])]
          simp)
      show applyOne e (Parsed.single (F 0)) ::
          applyParsed es ((List.range (es.filter exportable).length).map
            (fun j => Parsed.single (F (j + 1)))) = _
      rw [happ, hrec]
    · rw [List.filter_cons_of_neg (by simp [hx])]
      have hstep : applyParsed (e :: es)
          ((List.range (es.filter exportable).length).map (fun j => Parsed.single (F j))) =
          e :: applyParsed es
            ((List.range (es.filter exportable).length).map (fun j => Parsed.single (F j))) := by
        rw [applyParsed.eq_def]
        simp [hx]
      rw [hstep, ih F (fun x hx2 => hall x (List.mem_cons_of_mem e hx2))
        (fun j => by rw [hF j, List.filter_cons_of_neg (by simp [hx])])]
      simp [hx]

lemma alignEntry_msgid (e : Entry) :
    (alignEntry e).msgid = e.msgid ∧ (alignEntry e).msgid_plural = e.msgid_plural := by
  unfold alignEntry
  split_ifs <;> exact ⟨rfl, rfl⟩

lemma normalizeEntry_msgid (t : Nat) (e : Entry) :
    (normalizeEntry t e).msgid = e.msgid ∧ (normalizeEntry t e).msgid_plural = e.msgid_plural := by
  unfold normalizeEntry
  split_ifs <;> exact ⟨rfl, rfl⟩

lemma linearUnits_nonplural (pc : Nat) :
    ∀ es : List Entry, (∀ e ∈ es, isPlural e = false) →
      linearUnits pc es = es.map Entry.msgid := by
  intro es
  induction es with
  | nil => intro _; rfl
  | cons e es ih =>
    intro hall
    rw [linearUnits, entryUnits]
    simp only [hall e (List.mem_cons_self e es), Bool.false_eq_true, if_false]
    rw [ih (fun x hx => hall x (List.mem_cons_of_mem e hx))]
    rfl

lemma oneLineExportEsc_noCR (s : List Char) (h : '\r' ∉ s) :
    oneLineExportEsc s = replaceAll ['\n'] ['\\', 'n'] s := by
  rw [oneLineExportEsc, replaceAll_head_not_mem '\r' ['\n'] ['\n'] s h,
    replaceAll_head_not_mem '\r' [] ['\n'] s h]

lemma getD_map_esc : ∀ (l : List (List Char)) (j : Nat),
    (l.map oneLineExportEsc).getD j [] = oneLineExportEsc (l.getD j []) := by
  intro l
  induction l with
  | nil => intro j; simp; rfl
  | cons x xs ih =>
    intro j
    rcases j with _ | j
    · simp
    · simpa using ih j

lemma normalizeEntry_nonplural (t : Nat) (e : Entry) (h : isPlural e = false) :
    normalizeEntry t e = e := by
  unfold normalizeEntry
  simp [h]

lemma exportable_msgid_ne_nil (e : Entry) (h : exportable e = true) : e.msgid ≠ [] := by
  intro hnil
  rw [exportable, hnil] at h
  exact absurd h (by decide)

lemma alignEntry_fix (e : Entry) (hx : exportable e = true) (hp : isPlural e = false) :
    alignEntry { e with msgstr := e.msgid } = { e with msgstr := e.msgid } := by
  have hmi : e.msgid ≠ [] := exportable_msgid_ne_nil e hx
  unfold alignEntry
  simp only [show isPlural { e with msgstr := e.msgid } = false from hp, Bool.not_false,
    if_true]
  rw [if_neg (by simpa [List.isEmpty_iff] using hmi)]
  simp [alignStr_self]

lemma filter_exportable_map (f : Entry → Entry) (hf : ∀ e, (f e).msgid = e.msgid) :
    ∀ l : List Entry, (l.map f).filter exportable = (l.filter exportable).map f := by
  intro l
  induction l with
  | nil => rfl
  | cons e es ih =>
    have hx : exportable (f e) = exportable e := by rw [exportable, hf, exportable]
    rw [List.map_cons]
    by_cases he : exportable e = true
    · rw [List.filter_cons_of_pos (by simp [hx, he]), List.filter_cons_of_pos (by simp [he]),
        List.map_cons, ih]
    · rw [List.filter_cons_of_neg (by simp [hx, he]), List.filter_cons_of_neg (by simp [he]), ih]

lemma untranslated_roundtrip_tail (lang : Option String) (md : List (String × List Char))
    (es : List Entry) (hnp : ∀ e ∈ es, isPlural e = false) :
    untranslatedOf (normalizeCatalog lang (alignCatalog
      { entries := es.map (fun e => if exportable e then { e with msgstr := e.msgid } else e),
        metadata := md })) =
    (es.filter exportable).map (fun e => { e with msgstr := e.msgid }) := by
  rw [normalizeCatalog, alignCatalog]
  simp only [List.map_map]
  rw [untranslatedOf]
  rw [filter_exportable_map _ (fun e => by
    rw [Function.comp_apply, Function.comp_apply, (normalizeEntry_msgid _ _).1,
      (alignEntry_msgid _).1]
    by_cases hx : exportable e = true <;> simp [hx])]
  apply List.map_congr_left
  intro e he
  obtain ⟨hee, hex⟩ := List.mem_filter.mp he
  have hp : isPlural e = false := hnp e hee
  rw [Function.comp_apply, Function.comp_apply]
  rw [if_pos hex, alignEntry_fix e hex hp,
    normalizeEntry_nonplural _ _ (show isPlural { e with msgstr := e.msgid } = false from hp)]

end Po

namespace Po

/-- Line-level half of the C4 round trip: when the exported numbered
lines are handed back to the import dispatch unchanged, the import
succeeds and every untranslated entry's translation becomes its source
text, provided no exportable source text holds a carriage return or a
literal backslash-n pair. -/
lemma roundtrip_on_lines (cat : Catalog)
    (hnp : ∀ e ∈ cat.entries, isPlural e = false)
    (hgood : ∀ e ∈ cat.entries, exportable e = true →
      '\r' ∉ e.msgid ∧ hasSub ['\\', 'n'] e.msgid = false) :
    (importTranslations cat (exportLines cat) none).1 = true ∧
    untranslatedOf (importTranslations cat (exportLines cat) none).2 =
      (untranslatedOf cat).map (fun e => { e with msgstr := e.msgid }) := by
  have hunt : ∀ e ∈ untranslatedOf cat, isPlural e = false :=
    fun e he => hnp e (List.mem_of_mem_filter he)
  have hlin : linearUnits (getPluralCountFromPo cat) (untranslatedOf cat) =
      (untranslatedOf cat).map Entry.msgid :=
    linearUnits_nonplural _ _ hunt
  have hts : exportLines cat =
      numberFrom 1 (((untranslatedOf cat).map Entry.msgid).map oneLineExportEsc) := by
    rw [exportLines, hlin]
  have hlen : (exportLines cat).length = (untranslatedOf cat).length := by
    rw [hts, numberFrom_length]
    simp
  have hfil : (exportLines cat).filter isNumberedLine = exportLines cat :=
    List.filter_eq_self.mpr (fun l hl => by
      rw [hts] at hl
      exact numberFrom_all_numbered _ 1 l hl)
  have hF : ∀ j, cleanLine ((exportLines cat).getD (0 + j) []) =
      ((untranslatedOf cat).map Entry.msgid).getD j [] := by
    intro j
    rw [Nat.zero_add]
    by_cases hj : j < (untranslatedOf cat).length
    · rw [hts, numberFrom_getD _ 1 j (by simpa using hj), cleanLine_numbered, getD_map_esc]
      have hjlt : j < ((untranslatedOf cat).map Entry.msgid).length := by simpa using hj
      have hmem : ((untranslatedOf cat).map Entry.msgid).getD j [] ∈
          (untranslatedOf cat).map Entry.msgid := by
        rw [List.getD_eq_getElem _ _ hjlt]
        exact List.getElem_mem _
      obtain ⟨e, he, heq⟩ := List.mem_map.mp hmem
      have hee : e ∈ cat.entries := List.mem_of_mem_filter he
      have hex : exportable e = true := (List.mem_filter.mp he).2
      obtain ⟨hcr, hsub⟩ := hgood e hee hex
      rw [← heq, oneLineExportEsc_noCR _ hcr, unesc_esc _ hsub]
    · have h1 : ((untranslatedOf cat).map Entry.msgid).length ≤ j := by
        simpa using Nat.le_of_not_lt hj
      rw [List.getD_eq_default _ _ (by rw [hlen]; omega), List.getD_eq_default _ _ h1]
      exact cleanLine_nil
  have happly : applyParsed cat.entries
      ((List.range (untranslatedOf cat).length).map
        (fun j => Parsed.single (((untranslatedOf cat).map Entry.msgid).getD j []))) =
      cat.entries.map (fun e => if exportable e then { e with msgstr := e.msgid } else e) :=
    applyParsed_range cat.entries _ hnp (fun j => rfl)
  by_cases hnil : untranslatedOf cat = []
  · have hts0 : exportLines cat = [] := by
      rw [hts, hnil]
      rfl
    have happly0 : applyParsed cat.entries [] =
        cat.entries.map (fun e => if exportable e then { e with msgstr := e.msgid } else e) := by
      rw [hnil] at happly
      simpa using happly
    simp only [importTranslations, hts0]
    rw [show (List.filter isNumberedLine [] : List (List Char)) = [] from rfl]
    simp only [List.isEmpty_nil, Bool.not_true, Bool.false_eq_true, if_false]
    rw [show untranslatedOf cat = [] from hnil]
    rw [show parsePlainGo (resolvedCount none cat) [] [] 0 = some [] from rfl]
    simp only [List.length_nil, ne_eq, not_true_eq_false, if_neg, ite_false]
    refine ⟨trivial, ?_⟩
    rw [happly0]
    have htail := untranslated_roundtrip_tail none cat.metadata cat.entries hnp
    rw [show (cat.entries.filter exportable) = [] from hnil] at htail
    simpa using htail
  · have hlenpos : 0 < (untranslatedOf cat).length :=
      List.length_pos.mpr hnil
    have hexp_ne : exportLines cat ≠ [] := by
      intro h0
      rw [h0] at hlen
      simp at hlen
      omega
    have hnum : (!(exportLines cat).isEmpty) = true := by
      simp [List.isEmpty_iff, hexp_ne]
    have hparse : parseNumbered (getPluralCountFromPo cat) (untranslatedOf cat)
        (exportLines cat) =
        some ((List.range (untranslatedOf cat).length).map
          (fun j => Parsed.single (((untranslatedOf cat).map Entry.msgid).getD j []))) := by
      rw [parseNumbered, parse_singles _ _ _ 0 hunt (by rw [hlen]; omega)]
      congr 1
      apply List.map_congr_left
      intro j hj
      exact congrArg Parsed.single (hF j)
    simp only [importTranslations]
    rw [hfil, if_pos hnum, hparse]
    simp only [List.length_map, List.length_range, ne_eq, not_true_eq_false, if_neg, ite_false]
    refine ⟨trivial, ?_⟩
    rw [happly]
    exact untranslated_roundtrip_tail none cat.metadata cat.entries hnp

end Po

namespace Po

/-- The line-boundary characters of Python `str.splitlines`: LF, CR,
VT, FF, FS, GS, RS, NEL, LINE SEPARATOR and PARAGRAPH SEPARATOR. -/
def isLineBreak (c : Char) : Bool :=
  c = '\n' || c = '\r' || c = '\x0b' || c = '\x0c' ||
  c = '\x1c' || c = '\x1d' || c = '\x1e' || c = '\x85' ||
  c = '\u2028' || c = '\u2029'

/-- Python `str.splitlines`, fueled for structural recursion: split at
every line boundary, `\r\n` counting as a single boundary, with no
final empty line after a trailing boundary.  Every step consumes at
least one character, so fuel `s.length` (supplied by `pySplitlines`)
never runs out. -/
def pySplitlinesGo : Nat → List Char → List (List Char)
  | 0, _ => []
  | _, [] => []
  | fuel + 1, c :: cs =>
    if isLineBreak c then
      if c = '\r' ∧ isPfx ['\n'] cs then [] :: pySplitlinesGo fuel (cs.drop 1)
      else [] :: pySplitlinesGo fuel cs
    else
      match pySplitlinesGo fuel cs with
      | [] => [[c]]
      | l :: ls => (c :: l) :: ls

/-- Python `str.splitlines`. -/
def pySplitlines (s : List Char) : List (List Char) := pySplitlinesGo s.length s

/-- File content from a list of lines, each written with a trailing
newline (`f.write(f"{line_number}. {...}\n")`). -/
def writeLines : List (List Char) → List Char
  | [] => []
  | l :: ls => l ++ '\n' :: writeLines ls

/-- The file content written by `export_untranslated_to_txt`. -/
def exportFile (cat : Catalog) : List Char := writeLines (exportLines cat)

/-- `import_translations_from_txt` from the file content: the read
splits the text with `str.splitlines` before the line-format dispatch. -/
def importTranslationsFile (cat : Catalog) (content : List Char) (lang : Option String) :
    Bool × Catalog :=
  importTranslations cat (pySplitlines content) lang

lemma pySplitlinesGo_fuel_irrel :
    ∀ (f1 : Nat), ∀ (f2 : Nat) (s : List Char), s.length ≤ f1 → s.length ≤ f2 →
      pySplitlinesGo f1 s = pySplitlinesGo f2 s := by
  intro f1
  induction f1 with
  | zero =>
    intro f2 s h1 h2
    have hs : s = [] := List.eq_nil_of_length_eq_zero (by omega)
    subst hs
    cases f2 <;> rfl
  | succ f1 ih =>
    intro f2 s h1 h2
    rcases s with _ | ⟨c, cs⟩
    · cases f2 <;> rfl
    · rcases f2 with _ | f2
      · simp at h2
      · simp only [List.length_cons] at h1 h2
        rw [pySplitlinesGo, pySplitlinesGo]
        by_cases hb : isLineBreak c = true
        · rw [if_pos hb, if_pos hb]
          by_cases hcr : c = '\r' ∧ isPfx ['\n'] cs = true
          · rw [if_pos hcr, if_pos hcr]
            exact congrArg (List.cons [])
              (ih f2 (cs.drop 1) (by simp only [List.length_drop]; omega)
                (by simp only [List.length_drop]; omega))
          · rw [if_neg hcr, if_neg hcr]
            exact congrArg (List.cons []) (ih f2 cs (by omega) (by omega))
        · rw [if_neg hb, if_neg hb]
          rw [ih f2 cs (by omega) (by omega)]

lemma pySplitlines_cons (c : Char) (cs : List Char) :
    pySplitlines (c :: cs) =
      if isLineBreak c then
        if c = '\r' ∧ isPfx ['\n'] cs then [] :: pySplitlines (cs.drop 1)
        else [] :: pySplitlines cs
      else
        match pySplitlines cs with
        | [] => [[c]]
        | l :: ls => (c :: l) :: ls := by
  rw [pySplitlines]
  simp only [List.length_cons]
  rw [pySplitlinesGo]
  by_cases hb : isLineBreak c = true
  · rw [if_pos hb, if_pos hb]
    by_cases hcr : c = '\r' ∧ isPfx ['\n'] cs = true
    · rw [if_pos hcr, if_pos hcr]
      refine congrArg (List.cons []) ?_
      rw [pySplitlines]
      exact pySplitlinesGo_fuel_irrel cs.length _ (cs.drop 1)
        (by simp only [List.length_drop]; omega) le_rfl
    · rw [if_neg hcr, if_neg hcr]
      rfl
  · rw [if_neg hb, if_neg hb]
    rfl

lemma pySplitlines_nl (rest : List Char) :
    pySplitlines ('\n' :: rest) = [] :: pySplitlines rest := by
  rw [pySplitlines_cons, if_pos (by decide),
    if_neg (fun hcr => absurd hcr.1 (by decide))]

lemma pySplitlines_cons_nb (c : Char) (cs : List Char) (hc : isLineBreak c = false) :
    pySplitlines (c :: cs) =
      match pySplitlines cs with
      | [] => [[c]]
      | l :: ls => (c :: l) :: ls := by
  rw [pySplitlines_cons, if_neg (by simp [hc])]

lemma pySplitlines_append_line : ∀ (l rest : List Char), (∀ c ∈ l, isLineBreak c = false) →
    pySplitlines (l ++ '\n' :: rest) = l :: pySplitlines rest := by
  intro l
  induction l with
  | nil =>
    intro rest _
    rw [List.nil_append]
    exact pySplitlines_nl rest
  | cons c l2 ih =>
    intro rest hl
    have hc : isLineBreak c = false := hl c (List.mem_cons_self c l2)
    rw [List.cons_append, pySplitlines_cons_nb c _ hc,
      ih rest (fun x hx => hl x (List.mem_cons_of_mem c hx))]

lemma pySplitlines_writeLines : ∀ ls : List (List Char),
    (∀ l ∈ ls, ∀ c ∈ l, isLineBreak c = false) →
    pySplitlines (writeLines ls) = ls := by
  intro ls
  induction ls with
  | nil => intro _; rfl
  | cons l ls ih =>
    intro h
    rw [writeLines, pySplitlines_append_line l _ (h l (List.mem_cons_self l ls)),
      ih (fun x hx => h x (List.mem_cons_of_mem l hx))]

lemma break_not_digit (c : Char) (h : isLineBreak c = true) : isDigitB c = false := by
  have hmem : c ∈ ['\n', '\r', '\x0b', '\x0c', '\x1c', '\x1d', '\x1e', '\x85',
      '\u2028', '\u2029'] := by
    rw [isLineBreak] at h
    simp only [Bool.or_eq_true, decide_eq_true_eq] at h
    simp only [List.mem_cons, List.not_mem_nil, or_false]
    tauto
  fin_cases hmem <;> decide

lemma digit_not_break (c : Char) (h : isDigitB c = true) : isLineBreak c = false := by
  cases hb : isLineBreak c
  · rfl
  · rw [break_not_digit c hb] at h
    cases h

lemma mem_replaceAll_single (p : Char) (rep : List Char) :
    ∀ (s : List Char) (c : Char), c ∈ replaceAll [p] rep s → c ∈ rep ∨ (c ∈ s ∧ c ≠ p) := by
  intro s
  induction s with
  | nil =>
    intro c hc
    rw [replaceAll_nil] at hc
    cases hc
  | cons d rest ih =>
    intro c hc
    rw [replaceAll_cons] at hc
    by_cases hd : d = p
    · have hcond : 0 < ([p] : List Char).length ∧ isPfx [p] (d :: rest) = true :=
        ⟨by simp, by simp [isPfx, hd]⟩
      rw [if_pos hcond] at hc
      simp only [List.length_cons, List.length_nil, List.drop_succ_cons, List.drop_zero] at hc
      rcases List.mem_append.mp hc with h1 | h2
      · exact Or.inl h1
      · rcases ih c h2 with h3 | ⟨h4, h5⟩
        · exact Or.inl h3
        · exact Or.inr ⟨List.mem_cons_of_mem d h4, h5⟩
    · have hcond : ¬(0 < ([p] : List Char).length ∧ isPfx [p] (d :: rest) = true) := by
        rintro ⟨-, h2⟩
        simp [isPfx, Ne.symm hd] at h2
      rw [if_neg hcond] at hc
      rcases List.mem_cons.mp hc with rfl | h2
      · exact Or.inr ⟨List.mem_cons_self c rest, hd⟩
      · rcases ih c h2 with h3 | ⟨h4, h5⟩
        · exact Or.inl h3
        · exact Or.inr ⟨List.mem_cons_of_mem d h4, h5⟩

lemma oneLineExportEsc_no_break (s : List Char)
    (hs : ∀ c ∈ s, c ≠ '\n' → isLineBreak c = false) :
    ∀ c ∈ oneLineExportEsc s, isLineBreak c = false := by
  intro c hc
  have hcr : '\r' ∉ s := by
    intro hmem
    have h1 := hs '\r' hmem (by decide)
    rw [show isLineBreak '\r' = true from by decide] at h1
    cases h1
  rw [oneLineExportEsc_noCR s hcr] at hc
  rcases mem_replaceAll_single '\n' ['\\', 'n'] s c hc with h | ⟨h1, h2⟩
  · simp only [List.mem_cons, List.not_mem_nil, or_false] at h
    rcases h with rfl | rfl <;> decide
  · exact hs c h1 h2

lemma mem_numberFrom : ∀ (l : List (List Char)) (n : Nat) (line : List Char),
    line ∈ numberFrom n l → ∃ k t, t ∈ l ∧ line = natChars k ++ '.' :: ' ' :: t := by
  intro l
  induction l with
  | nil =>
    intro n line h
    simp [numberFrom] at h
  | cons t ts ih =>
    intro n line h
    rw [numberFrom] at h
    rcases List.mem_cons.mp h with rfl | h2
    · exact ⟨n, t, List.mem_cons_self t ts, rfl⟩
    · obtain ⟨k, t2, ht2, heq⟩ := ih (n + 1) line h2
      exact ⟨k, t2, List.mem_cons_of_mem t ht2, heq⟩

/-- C4 (amended): for a catalog of non-pluralizable entries whose
exportable source texts contain no line-boundary character of Python
`str.splitlines` other than the line feed (and no literal backslash-n
pair), writing the export file and importing it back succeeds and sets
every untranslated entry's translation to exactly its source text.
Without the boundary restriction `splitlines` shatters a text holding
e.g. a vertical tab into several lines, and without the literal
backslash-n restriction the escape reversal of `clean_line` corrupts
the text — see the counterexample. -/
theorem c4_amended (cat : Catalog)
    (hnp : ∀ e ∈ cat.entries, isPlural e = false)
    (hgood : ∀ e ∈ cat.entries, exportable e = true →
      (∀ c ∈ e.msgid, c ≠ '\n' → isLineBreak c = false) ∧
      hasSub ['\\', 'n'] e.msgid = false) :
    (importTranslationsFile cat (exportFile cat) none).1 = true ∧
    untranslatedOf (importTranslationsFile cat (exportFile cat) none).2 =
      (untranslatedOf cat).map (fun e => { e with msgstr := e.msgid }) := by
  have hgood2 : ∀ e ∈ cat.entries, exportable e = true →
      '\r' ∉ e.msgid ∧ hasSub ['\\', 'n'] e.msgid = false := by
    intro e he hx
    obtain ⟨hb, hsub⟩ := hgood e he hx
    refine ⟨?_, hsub⟩
    intro hmem
    have h1 := hb '\r' hmem (by decide)
    rw [show isLineBreak '\r' = true from rfl] at h1
    cases h1
  have hunt : ∀ e ∈ untranslatedOf cat, isPlural e = false :=
    fun e he => hnp e (List.mem_of_mem_filter he)
  have hlines : ∀ l ∈ exportLines cat, ∀ c ∈ l, isLineBreak c = false := by
    intro l hl c hc
    rw [exportLines, linearUnits_nonplural _ _ hunt] at hl
    obtain ⟨k, t, ht, rfl⟩ := mem_numberFrom _ 1 l hl
    obtain ⟨s, hsmem, rfl⟩ := List.mem_map.mp ht
    obtain ⟨e, he, rfl⟩ := List.mem_map.mp hsmem
    have hee : e ∈ cat.entries := List.mem_of_mem_filter he
    have hex : exportable e = true := (List.mem_filter.mp he).2
    simp only [List.mem_append, List.mem_cons] at hc
    rcases hc with hdig | rfl | rfl | hesc
    · exact digit_not_break c ((natChars_digits k).2 c hdig)
    · rfl
    · rfl
    · exact oneLineExportEsc_no_break e.msgid (hgood e hee hex).1 c hesc
  rw [importTranslationsFile, exportFile, pySplitlines_writeLines _ hlines]
  exact roundtrip_on_lines cat hnp hgood2

end Po

namespace Po

/-- Catalog for the C4 counterexample: one ordinary entry whose source
text contains the literal two characters `\` `n`. -/
def exCatC4 : Catalog := ⟨[⟨"a\\nb".toList, [], [], []⟩], []⟩

/-- C4 counterexample: the export-file/import-file round trip is not
the identity on every catalog of non-pluralizable entries.  The source
text `a\nb` (four characters, with a literal backslash) exports
unchanged, but the import's `clean_line` turns the `\n` pair into a
real line break, so the resulting translation differs from the source
text (and the parity pass then appends a trailing line break to match
the source). -/
theorem c4_counterexample :
    (∀ e ∈ exCatC4.entries, isPlural e = false) ∧
    (importTranslationsFile exCatC4 (exportFile exCatC4) none).1 = true ∧
    (untranslatedOf exCatC4).map Entry.msgid = ["a\\nb".toList] ∧
    (untranslatedOf (importTranslationsFile exCatC4 (exportFile exCatC4) none).2).map
      Entry.msgstr ≠ ["a\\nb".toList] := by
  decide

/-- Catalog for the C4 witness: ordinary entries, one with internal
line breaks and one whose text starts like a numbered line. -/
def exCatC4w : Catalog :=
  ⟨[⟨"hello".toList, [], [], []⟩,
    ⟨"a\nb  c".toList, [], "old".toList, []⟩,
    ⟨"2. x".toList, [], [], []⟩], []⟩

/-- C4 witness: the amended file round trip at a concrete catalog. -/
theorem c4_witness :
    (importTranslationsFile exCatC4w (exportFile exCatC4w) none).1 = true ∧
    untranslatedOf (importTranslationsFile exCatC4w (exportFile exCatC4w) none).2 =
      (untranslatedOf exCatC4w).map (fun e => { e with msgstr := e.msgid }) :=
  c4_amended exCatC4w (by decide) (by decide)

end Po
